import Mathlib

/-!
Verification development for the rooftop solar-panel layout engine
(`backend/rooftop.py` of the neolectra repository).

The engine's geometric substrate (OpenCV raster operations and shapely
polygon algebra) is abstracted as oracle data: a polygon is represented by
its bounding box, a containment test for axis-aligned candidate rectangles
(modelling `rect.within(poly.buffer(-1e-6))`), and a point-set carrier in
`Set (ℚ × ℚ)` used in semantic hypotheses.  All control flow of the Python
code — the row-major greedy grid packer with its overshoot tolerance, the
per-part target-budget carryover, the obstacle relaxation ladder, the
multi-angle search with best-delta selection, the last-resort fallback and
parameter validation — is translated directly and executably over ℚ.
Panel rectangles are kept in the rotated (packing) frame; the final
rotation back to image coordinates is an area- and incidence-preserving
bijection, so containment/overlap statements are stated in that frame,
matching the spec's "mapped back into the winning angle's rotated frame".
-/

/-- Axis-aligned rectangle, the shape of every candidate panel
(`box(x, y, x + pW, y + pL)` in the source). -/
structure Rect where
  x0 : ℚ
  y0 : ℚ
  x1 : ℚ
  y1 : ℚ
deriving DecidableEq, Repr

/-- Area of a rectangle (`rect.area` in shapely for a box). -/
def Rect.area (r : Rect) : ℚ := (r.x1 - r.x0) * (r.y1 - r.y0)

/-- Point set of a rectangle (closed). -/
def Rect.toSet (r : Rect) : Set (ℚ × ℚ) :=
  {p : ℚ × ℚ | r.x0 ≤ p.1 ∧ p.1 ≤ r.x1 ∧ r.y0 ≤ p.2 ∧ p.2 ≤ r.y1}

/-- Area of the intersection of two axis-aligned rectangles. -/
def interArea (a b : Rect) : ℚ :=
  max 0 (min a.x1 b.x1 - max a.x0 b.x0) * max 0 (min a.y1 b.y1 - max a.y0 b.y0)

/-- Total area of a list of rectangles (`sum(r.area for r in placed)`). -/
def sumArea (l : List Rect) : ℚ := (l.map Rect.area).sum

/-- Abstraction of one shapely polygon as the grid packer consumes it:
its bounding box (`poly.bounds`), the containment test for candidate
rectangles (`rect.within(poly.buffer(-1e-6))`) and its point set. -/
structure PackPoly where
  minx : ℚ
  miny : ℚ
  maxx : ℚ
  maxy : ℚ
  inside : Rect → Bool
  carrier : Set (ℚ × ℚ)

/-- Inner-loop of `_pack_grid`: one row of the grid scan.  Mirrors the
source's `for _ in range(cols)` loop: the overshoot check may `continue`
to the next cell, a placement that reaches the target `break`s (third
component `true`).  Returns the rectangles newly placed in this row, the
updated covered area and the break flag. -/
def packCols (ins : Rect → Bool) (pW pL stepX target tol pArea : ℚ) :
    ℕ → ℚ → ℚ → ℚ → List Rect × ℚ × Bool
  | 0, _, _, covered => ([], covered, false)
  | n + 1, x, y, covered =>
    let rect : Rect := ⟨x, y, x + pW, y + pL⟩
    if target > 0 ∧ covered + pArea > target ∧ covered + pArea - target > tol then
      packCols ins pW pL stepX target tol pArea n (x + stepX) y covered
    else if ins rect then
      let covered' := covered + pArea
      if target > 0 ∧ covered' ≥ target then ([rect], covered', true)
      else
        let out := packCols ins pW pL stepX target tol pArea n (x + stepX) y covered'
        (rect :: out.1, out.2.1, out.2.2)
    else
      packCols ins pW pL stepX target tol pArea n (x + stepX) y covered

/-- Outer loop of `_pack_grid` over the rows; `x` is the fixed row start
(`base_x + offx`).  A break signalled by the row, or the covered area
reaching a positive target, stops the scan. -/
def packRows (ins : Rect → Bool) (pW pL stepX stepY target tol pArea : ℚ) :
    ℕ → ℕ → ℚ → ℚ → ℚ → List Rect × ℚ
  | 0, _, _, _, covered => ([], covered)
  | r + 1, cols, x, y, covered =>
    let res := packCols ins pW pL stepX target tol pArea cols x y covered
    if res.2.2 ∨ (target > 0 ∧ res.2.1 ≥ target) then (res.1, res.2.1)
    else
      let out := packRows ins pW pL stepX stepY target tol pArea r cols x (y + stepY) res.2.1
      (res.1 ++ out.1, out.2)

/-- Horizontal span of the polygon's bounding box (`max(0, maxx - minx)`). -/
def availW (poly : PackPoly) : ℚ := max 0 (poly.maxx - poly.minx)

/-- Vertical span of the polygon's bounding box (`max(0, maxy - miny)`). -/
def availH (poly : PackPoly) : ℚ := max 0 (poly.maxy - poly.miny)

/-- Column count of `_pack_grid`: `1 + int((avail_w - pW_px) // step_x)`
when a single panel fits the span, else 0. -/
def gridColsOf (poly : PackPoly) (pW spacing : ℚ) : ℕ :=
  if availW poly ≥ pW then 1 + (⌊(availW poly - pW) / (pW + spacing)⌋).toNat else 0

/-- Row count of `_pack_grid`. -/
def gridRowsOf (poly : PackPoly) (pL spacing : ℚ) : ℕ :=
  if availH poly ≥ pL then 1 + (⌊(availH poly - pL) / (pL + spacing)⌋).toNat else 0

/-- Start abscissa of the centered grid:
`minx + (avail_w - (cols*pW + (cols-1)*spacing)) / 2`. -/
def baseXOf (poly : PackPoly) (pW spacing : ℚ) : ℚ :=
  poly.minx +
    (availW poly - ((gridColsOf poly pW spacing : ℚ) * pW +
      ((gridColsOf poly pW spacing : ℚ) - 1) * spacing)) / 2

/-- Start ordinate of the centered grid. -/
def baseYOf (poly : PackPoly) (pL spacing : ℚ) : ℚ :=
  poly.miny +
    (availH poly - ((gridRowsOf poly pL spacing : ℚ) * pL +
      ((gridRowsOf poly pL spacing : ℚ) - 1) * spacing)) / 2

/-- Placement scan of `_pack_grid` for one phase offset. -/
def offsetPlaced (poly : PackPoly) (pW pL spacing target tol : ℚ) (off : ℚ × ℚ) :
    List Rect :=
  (packRows poly.inside pW pL (pW + spacing) (pL + spacing) target tol (pW * pL)
    (gridRowsOf poly pL spacing) (gridColsOf poly pW spacing)
    (baseXOf poly pW spacing + off.1) (baseYOf poly pL spacing + off.2) 0).1

/-- Translation of `_pack_grid(poly, pW_px, pL_px, spacing_px,
target_area_px, offsets, overshoot_tol_area_px)`: centered grid, row and
column counts from the bounding box, one scan per phase offset, keeping
the offset with the strictly largest placed area (initial best is the
empty placement of area `0.0`). -/
def pack_grid (poly : PackPoly) (pW pL spacing target : ℚ)
    (offsets : List (ℚ × ℚ)) (tol : ℚ) : List Rect :=
  if gridColsOf poly pW spacing = 0 ∨ gridRowsOf poly pL spacing = 0 then []
  else
    offsets.foldl (fun best off =>
      let placed := offsetPlaced poly pW pL spacing target tol off
      if sumArea placed > sumArea best then placed else best) []

/-! Linear-scan reformulation of the nested packing loops, used for the
proofs.  A scan state carries the placed rectangles, the covered area
and an `active` flag; a cleared flag models having broken out of both
loops.  The equivalence with `packCols`/`packRows` is proved below. -/

/-- State of the linearized grid scan. -/
structure ScanSt where
  placed : List Rect
  covered : ℚ
  active : Bool
deriving Repr

/-- Candidate rectangle anchored at a grid cell. -/
def cellRect (pW pL : ℚ) (c : ℚ × ℚ) : Rect := ⟨c.1, c.2, c.1 + pW, c.2 + pL⟩

/-- One linear-scan step: skip everything once inactive; otherwise apply
the overshoot check, the containment test and the reach-target break of
the source's inner loop body. -/
def stepCell (ins : Rect → Bool) (pW pL target tol pArea : ℚ) (st : ScanSt) (c : ℚ × ℚ) :
    ScanSt :=
  if st.active = false then st
  else
    let rect := cellRect pW pL c
    if target > 0 ∧ st.covered + pArea > target ∧ st.covered + pArea - target > tol then st
    else if ins rect then
      let covered' := st.covered + pArea
      ⟨st.placed ++ [rect], covered', if target > 0 ∧ covered' ≥ target then false else true⟩
    else st

/-- Fold of the scan step over a list of grid-cell anchors. -/
def scanCells (ins : Rect → Bool) (pW pL target tol pArea : ℚ)
    (cells : List (ℚ × ℚ)) (st : ScanSt) : ScanSt :=
  cells.foldl (stepCell ins pW pL target tol pArea) st

/-- Anchors of one grid row, advancing by `stepX`. -/
def rowCells (stepX : ℚ) : ℕ → ℚ → ℚ → List (ℚ × ℚ)
  | 0, _, _ => []
  | n + 1, x, y => (x, y) :: rowCells stepX n (x + stepX) y

/-- Anchors of the whole grid in row-major order. -/
def gridCells (stepX stepY : ℚ) (cols : ℕ) : ℕ → ℚ → ℚ → List (ℚ × ℚ)
  | 0, _, _ => []
  | r + 1, x, y => rowCells stepX cols x y ++ gridCells stepX stepY cols r x (y + stepY)

theorem scanCells_inactive (ins : Rect → Bool) (pW pL target tol pArea : ℚ)
    (cells : List (ℚ × ℚ)) (l : List Rect) (c : ℚ) :
    scanCells ins pW pL target tol pArea cells ⟨l, c, false⟩ = ⟨l, c, false⟩ := by
  induction cells with
  | nil => rfl
  | cons hd tl ih => simpa [scanCells, stepCell] using ih

theorem scanCells_cons (ins : Rect → Bool) (pW pL target tol pArea : ℚ)
    (c : ℚ × ℚ) (cs : List (ℚ × ℚ)) (st : ScanSt) :
    scanCells ins pW pL target tol pArea (c :: cs) st =
      scanCells ins pW pL target tol pArea cs (stepCell ins pW pL target tol pArea st c) :=
  rfl

theorem stepCell_active_skip (ins : Rect → Bool) (pW pL target tol pArea : ℚ)
    (l : List Rect) (covered : ℚ) (c : ℚ × ℚ)
    (h : target > 0 ∧ covered + pArea > target ∧ covered + pArea - target > tol) :
    stepCell ins pW pL target tol pArea ⟨l, covered, true⟩ c = ⟨l, covered, true⟩ := by
  simp [stepCell, h]

theorem stepCell_active_place (ins : Rect → Bool) (pW pL target tol pArea : ℚ)
    (l : List Rect) (covered : ℚ) (c : ℚ × ℚ)
    (hskip : ¬ (target > 0 ∧ covered + pArea > target ∧ covered + pArea - target > tol))
    (hins : ins (cellRect pW pL c) = true) :
    stepCell ins pW pL target tol pArea ⟨l, covered, true⟩ c =
      ⟨l ++ [cellRect pW pL c], covered + pArea,
        if target > 0 ∧ covered + pArea ≥ target then false else true⟩ := by
  simp [stepCell, hskip, hins]

theorem stepCell_active_out (ins : Rect → Bool) (pW pL target tol pArea : ℚ)
    (l : List Rect) (covered : ℚ) (c : ℚ × ℚ)
    (hskip : ¬ (target > 0 ∧ covered + pArea > target ∧ covered + pArea - target > tol))
    (hins : ¬ ins (cellRect pW pL c) = true) :
    stepCell ins pW pL target tol pArea ⟨l, covered, true⟩ c = ⟨l, covered, true⟩ := by
  simp [stepCell, hskip, hins]

theorem packCols_scan (ins : Rect → Bool) (pW pL stepX target tol pArea : ℚ)
    (n : ℕ) :
    ∀ (x y covered : ℚ) (l : List Rect),
      scanCells ins pW pL target tol pArea (rowCells stepX n x y) ⟨l, covered, true⟩ =
        ⟨l ++ (packCols ins pW pL stepX target tol pArea n x y covered).1,
         (packCols ins pW pL stepX target tol pArea n x y covered).2.1,
         !(packCols ins pW pL stepX target tol pArea n x y covered).2.2⟩ := by
  induction n with
  | zero => intro x y covered l; simp [rowCells, scanCells, packCols]
  | succ n ih =>
    intro x y covered l
    rw [rowCells, scanCells_cons]
    by_cases hskip : target > 0 ∧ covered + pArea > target ∧ covered + pArea - target > tol
    · rw [stepCell_active_skip ins pW pL target tol pArea l covered (x, y) hskip]
      rw [ih (x + stepX) y covered l]
      simp only [packCols, if_pos hskip]
    · by_cases hins : ins (cellRect pW pL (x, y)) = true
      · have hins' : ins ⟨x, y, x + pW, y + pL⟩ = true := by simpa [cellRect] using hins
        rw [stepCell_active_place ins pW pL target tol pArea l covered (x, y) hskip hins]
        by_cases hbrk : target > 0 ∧ covered + pArea ≥ target
        · rw [if_pos hbrk, scanCells_inactive]
          simp only [packCols, if_neg hskip, hins', if_pos hbrk, if_true]
          simp [cellRect]
        · rw [if_neg hbrk, ih (x + stepX) y (covered + pArea) (l ++ [cellRect pW pL (x, y)])]
          simp only [packCols, if_neg hskip, hins', if_neg hbrk, if_true]
          simp [cellRect]
      · rw [stepCell_active_out ins pW pL target tol pArea l covered (x, y) hskip hins]
        rw [ih (x + stepX) y covered l]
        have hins' : ¬ ins ⟨x, y, x + pW, y + pL⟩ = true := by
          simpa [cellRect] using hins
        simp only [packCols, if_neg hskip, if_neg hins']

theorem packCols_brk_ge (ins : Rect → Bool) (pW pL stepX target tol pArea : ℚ) (n : ℕ) :
    ∀ (x y covered : ℚ),
      ((packCols ins pW pL stepX target tol pArea n x y covered).2.2 = true →
        target > 0 ∧ (packCols ins pW pL stepX target tol pArea n x y covered).2.1 ≥ target) ∧
      ((packCols ins pW pL stepX target tol pArea n x y covered).2.2 = false →
        (target > 0 → covered < target →
          (packCols ins pW pL stepX target tol pArea n x y covered).2.1 < target)) := by
  induction n with
  | zero => intro x y covered; simp [packCols]
  | succ n ih =>
    intro x y covered
    by_cases hskip : target > 0 ∧ covered + pArea > target ∧ covered + pArea - target > tol
    · simpa [packCols, hskip] using ih (x + stepX) y covered
    · by_cases hins : ins ⟨x, y, x + pW, y + pL⟩ = true
      · by_cases hbrk : target > 0 ∧ covered + pArea ≥ target
        · simp only [packCols, if_neg hskip, hins, if_pos hbrk, if_true]
          exact ⟨fun _ => hbrk, by simp⟩
        · simp only [packCols, if_neg hskip, hins, if_neg hbrk, if_true]
          refine ⟨(ih (x + stepX) y (covered + pArea)).1, fun hb ht _ => ?_⟩
          have hlt : covered + pArea < target := by
            rcases not_and_or.mp hbrk with h | h
            · exact absurd ht h
            · exact lt_of_not_ge h
          exact (ih (x + stepX) y (covered + pArea)).2 hb ht hlt
      · simpa [packCols, hskip, hins] using ih (x + stepX) y covered

theorem packRows_scan (ins : Rect → Bool) (pW pL stepX stepY target tol pArea : ℚ)
    (rows : ℕ) :
    ∀ (cols : ℕ) (x y covered : ℚ) (l : List Rect),
      (target > 0 → covered < target) →
      (scanCells ins pW pL target tol pArea (gridCells stepX stepY cols rows x y)
          ⟨l, covered, true⟩).placed =
        l ++ (packRows ins pW pL stepX stepY target tol pArea rows cols x y covered).1 := by
  induction rows with
  | zero => intro cols x y covered l _; simp [gridCells, scanCells, packRows]
  | succ r ih =>
    intro cols x y covered l hcov
    have hsplit : scanCells ins pW pL target tol pArea
        (gridCells stepX stepY cols (r + 1) x y) ⟨l, covered, true⟩ =
        scanCells ins pW pL target tol pArea (gridCells stepX stepY cols r x (y + stepY))
          (scanCells ins pW pL target tol pArea (rowCells stepX cols x y) ⟨l, covered, true⟩) := by
      simp [gridCells, scanCells, List.foldl_append]
    rw [hsplit, packCols_scan]
    set res := packCols ins pW pL stepX target tol pArea cols x y covered with hres
    by_cases hbrk : res.2.2 = true
    · rw [hbrk]
      simp only [Bool.not_true]
      rw [scanCells_inactive]
      simp only [packRows, ← hres]
      rw [if_pos (Or.inl hbrk)]
    · have hb : res.2.2 = false := by simpa using hbrk
      rw [hb]
      simp only [Bool.not_false]
      have hlt : target > 0 → res.2.1 < target := fun ht =>
        ((packCols_brk_ge ins pW pL stepX target tol pArea cols x y covered).2 hb) ht (hcov ht)
      have hcond : ¬ (res.2.2 = true ∨ (target > 0 ∧ res.2.1 ≥ target)) := by
        rintro (h | ⟨ht, hge⟩)
        · exact hbrk h
        · exact absurd hge (not_le.mpr (hlt ht))
      have := ih cols x (y + stepY) res.2.1 (l ++ res.1) hlt
      rw [this]
      simp only [packRows, ← hres]
      rw [if_neg hcond]
      simp

/-! Workhorse facts about the linear scan: the newly placed rectangles
form a sublist of the grid's candidate rectangles, each passed the
containment test, and the covered counter advances by `pArea` per
placement. -/

theorem scanCells_spec (ins : Rect → Bool) (pW pL target tol pArea : ℚ)
    (cells : List (ℚ × ℚ)) :
    ∀ st : ScanSt, ∃ ex : List Rect,
      (scanCells ins pW pL target tol pArea cells st).placed = st.placed ++ ex ∧
      ex.Sublist (cells.map (cellRect pW pL)) ∧
      (∀ r ∈ ex, ins r = true) ∧
      (scanCells ins pW pL target tol pArea cells st).covered =
        st.covered + pArea * ex.length := by
  induction cells with
  | nil =>
    intro st
    exact ⟨[], by simp [scanCells], by simp, by simp, by simp [scanCells]⟩
  | cons c cs ih =>
    rintro ⟨l, cov, act⟩
    cases act with
    | false =>
      refine ⟨[], ?_, by simp, by simp, ?_⟩
      · rw [scanCells_inactive]; simp
      · rw [scanCells_inactive]; simp
    | true =>
      rw [scanCells_cons]
      by_cases hskip : target > 0 ∧ cov + pArea > target ∧ cov + pArea - target > tol
      · rw [stepCell_active_skip ins pW pL target tol pArea l cov c hskip]
        obtain ⟨ex, h1, h2, h3, h4⟩ := ih ⟨l, cov, true⟩
        exact ⟨ex, h1, h2.cons _, h3, h4⟩
      · by_cases hins : ins (cellRect pW pL c) = true
        · rw [stepCell_active_place ins pW pL target tol pArea l cov c hskip hins]
          by_cases hbrk : target > 0 ∧ cov + pArea ≥ target
          · rw [if_pos hbrk, scanCells_inactive]
            refine ⟨[cellRect pW pL c], by simp, ?_, ?_, by simp⟩
            · simp
            · intro r hr
              rw [List.mem_singleton] at hr
              rw [hr]; exact hins
          · rw [if_neg hbrk]
            obtain ⟨ex, h1, h2, h3, h4⟩ := ih ⟨l ++ [cellRect pW pL c], cov + pArea, true⟩
            refine ⟨cellRect pW pL c :: ex, ?_, ?_, ?_, ?_⟩
            · simpa [List.append_assoc] using h1
            · simpa using List.Sublist.cons₂ (cellRect pW pL c) h2
            · intro r hr
              rcases List.mem_cons.mp hr with h | h
              · rw [h]; exact hins
              · exact h3 r h
            · simp only [h4, List.length_cons]
              push_cast; ring
        · rw [stepCell_active_out ins pW pL target tol pArea l cov c hskip hins]
          obtain ⟨ex, h1, h2, h3, h4⟩ := ih ⟨l, cov, true⟩
          exact ⟨ex, h1, h2.cons _, h3, h4⟩

theorem mem_map_cellRect {pW pL : ℚ} {cells : List (ℚ × ℚ)} {r : Rect}
    (h : r ∈ cells.map (cellRect pW pL)) :
    r.x1 - r.x0 = pW ∧ r.y1 - r.y0 = pL ∧ Rect.area r = pW * pL := by
  obtain ⟨c, _, rfl⟩ := List.mem_map.mp h
  refine ⟨by simp [cellRect], by simp [cellRect], ?_⟩
  simp [cellRect, Rect.area]

/-- Total area of a list whose members all have area `a`. -/
theorem sumArea_const {l : List Rect} {a : ℚ} (h : ∀ r ∈ l, Rect.area r = a) :
    sumArea l = a * l.length := by
  induction l with
  | nil => simp [sumArea]
  | cons hd tl ih =>
    have hhd := h hd (by simp)
    have htl := ih fun r hr => h r (List.mem_cons_of_mem _ hr)
    simp only [sumArea, List.map_cons, List.sum_cons, List.length_cons] at *
    rw [hhd, htl]; push_cast; ring

/-- Scan form of one offset's placement run. -/
theorem offsetPlaced_eq_scan (poly : PackPoly) (pW pL spacing target tol : ℚ)
    (off : ℚ × ℚ) :
    offsetPlaced poly pW pL spacing target tol off =
      (scanCells poly.inside pW pL target tol (pW * pL)
        (gridCells (pW + spacing) (pL + spacing) (gridColsOf poly pW spacing)
          (gridRowsOf poly pL spacing)
          (baseXOf poly pW spacing + off.1) (baseYOf poly pL spacing + off.2))
        ⟨[], 0, true⟩).placed := by
  rw [packRows_scan poly.inside pW pL (pW + spacing) (pL + spacing) target tol (pW * pL)
    (gridRowsOf poly pL spacing) (gridColsOf poly pW spacing)
    (baseXOf poly pW spacing + off.1) (baseYOf poly pL spacing + off.2) 0 []
    (fun ht => ht)]
  rfl

theorem offsetPlaced_spec (poly : PackPoly) (pW pL spacing target tol : ℚ)
    (off : ℚ × ℚ) :
    (offsetPlaced poly pW pL spacing target tol off).Sublist
      ((gridCells (pW + spacing) (pL + spacing) (gridColsOf poly pW spacing)
        (gridRowsOf poly pL spacing)
        (baseXOf poly pW spacing + off.1) (baseYOf poly pL spacing + off.2)).map
          (cellRect pW pL)) ∧
    (∀ r ∈ offsetPlaced poly pW pL spacing target tol off, poly.inside r = true) := by
  obtain ⟨ex, h1, h2, h3, _⟩ := scanCells_spec poly.inside pW pL target tol (pW * pL)
    (gridCells (pW + spacing) (pL + spacing) (gridColsOf poly pW spacing)
      (gridRowsOf poly pL spacing)
      (baseXOf poly pW spacing + off.1) (baseYOf poly pL spacing + off.2)) ⟨[], 0, true⟩
  rw [offsetPlaced_eq_scan, h1]
  simpa using ⟨h2, h3⟩

theorem offsetPlaced_area (poly : PackPoly) (pW pL spacing target tol : ℚ)
    (off : ℚ × ℚ) :
    sumArea (offsetPlaced poly pW pL spacing target tol off) =
      pW * pL * (offsetPlaced poly pW pL spacing target tol off).length := by
  refine sumArea_const fun r hr => ?_
  have := (offsetPlaced_spec poly pW pL spacing target tol off).1
  exact (mem_map_cellRect (this.mem hr)).2.2

/-- Result of the best-of-offsets fold: either no offset improved on the
empty initial placement, or the result is the placement of one offset. -/
theorem pack_grid_cases (poly : PackPoly) (pW pL spacing target : ℚ)
    (offsets : List (ℚ × ℚ)) (tol : ℚ) :
    pack_grid poly pW pL spacing target offsets tol = [] ∨
      ∃ off ∈ offsets, pack_grid poly pW pL spacing target offsets tol =
        offsetPlaced poly pW pL spacing target tol off := by
  unfold pack_grid
  by_cases hz : gridColsOf poly pW spacing = 0 ∨ gridRowsOf poly pL spacing = 0
  · rw [if_pos hz]; exact Or.inl rfl
  · rw [if_neg hz]
    suffices h : ∀ (offs : List (ℚ × ℚ)) (acc : List Rect),
        (acc = [] ∨ ∃ off ∈ offsets, acc = offsetPlaced poly pW pL spacing target tol off) →
        (∀ o ∈ offs, o ∈ offsets) →
        (offs.foldl (fun best off =>
          let placed := offsetPlaced poly pW pL spacing target tol off
          if sumArea placed > sumArea best then placed else best) acc = [] ∨
          ∃ off ∈ offsets, offs.foldl (fun best off =>
            let placed := offsetPlaced poly pW pL spacing target tol off
            if sumArea placed > sumArea best then placed else best) acc =
              offsetPlaced poly pW pL spacing target tol off) by
      exact h offsets [] (Or.inl rfl) (fun o ho => ho)
    intro offs
    induction offs with
    | nil => intro acc hacc _; simpa using hacc
    | cons o os ih =>
      intro acc hacc hsub
      simp only [List.foldl_cons]
      refine ih _ ?_ (fun o' ho' => hsub o' (List.mem_cons_of_mem _ ho'))
      by_cases hcmp : sumArea (offsetPlaced poly pW pL spacing target tol o) > sumArea acc
      · simp only [if_pos hcmp]
        exact Or.inr ⟨o, hsub o (by simp), rfl⟩
      · simp only [if_neg hcmp]
        exact hacc

/-- Every rectangle accepted by the grid packer passed the polygon's
containment test. -/
theorem pack_grid_mem_inside (poly : PackPoly) (pW pL spacing target : ℚ)
    (offsets : List (ℚ × ℚ)) (tol : ℚ) :
    ∀ r ∈ pack_grid poly pW pL spacing target offsets tol, poly.inside r = true := by
  rcases pack_grid_cases poly pW pL spacing target offsets tol with h | ⟨off, _, h⟩
  · rw [h]; simp
  · rw [h]; exact (offsetPlaced_spec poly pW pL spacing target tol off).2

theorem pack_grid_area (poly : PackPoly) (pW pL spacing target : ℚ)
    (offsets : List (ℚ × ℚ)) (tol : ℚ) :
    sumArea (pack_grid poly pW pL spacing target offsets tol) =
      pW * pL * (pack_grid poly pW pL spacing target offsets tol).length := by
  rcases pack_grid_cases poly pW pL spacing target offsets tol with h | ⟨off, _, h⟩
  · rw [h]; simp [sumArea]
  · rw [h]; exact offsetPlaced_area poly pW pL spacing target tol off

/-! Invariants of the greedy scan: covered area tracks the placement
count, placements stop once a positive target is reached, and the
overshoot never exceeds the tolerance. -/

/-- Scan invariant used for the target/overshoot bounds. -/
def ScanInv (target tol pArea : ℚ) (st : ScanSt) : Prop :=
  st.covered = pArea * st.placed.length ∧
  (st.active = true → st.covered < target) ∧
  (∀ k : ℕ, st.placed.length = k + 1 → pArea * k < target) ∧
  st.covered ≤ target + tol

theorem stepCell_inv (ins : Rect → Bool) (pW pL target tol pArea : ℚ)
    (hT : 0 < target) (htol : 0 ≤ tol) (st : ScanSt) (c : ℚ × ℚ)
    (h : ScanInv target tol pArea st) :
    ScanInv target tol pArea (stepCell ins pW pL target tol pArea st c) := by
  obtain ⟨l, cov, act⟩ := st
  obtain ⟨hcov, hact, hk, hbound⟩ := h
  cases act with
  | false => simpa [stepCell] using ⟨hcov, hact, hk, hbound⟩
  | true =>
    by_cases hskip : target > 0 ∧ cov + pArea > target ∧ cov + pArea - target > tol
    · rw [stepCell_active_skip ins pW pL target tol pArea l cov c hskip]
      exact ⟨hcov, hact, hk, hbound⟩
    · by_cases hins : ins (cellRect pW pL c) = true
      · rw [stepCell_active_place ins pW pL target tol pArea l cov c hskip hins]
        have hlt : cov < target := hact rfl
        have hle : cov + pArea ≤ target + tol := by
          rcases not_and_or.mp hskip with h | h
          · exact absurd hT h
          · rcases not_and_or.mp h with h | h
            · have := le_of_not_lt h
              linarith
            · have := le_of_not_lt h
              linarith
        refine ⟨?_, ?_, ?_, hle⟩
        · simp only [List.length_append, List.length_singleton, ScanInv] at *
          rw [hcov]; push_cast; ring
        · intro ha
          by_cases hge : target > 0 ∧ cov + pArea ≥ target
          · simp [hge] at ha
          · rcases not_and_or.mp hge with h | h
            · exact absurd hT h
            · simpa using lt_of_not_ge h
        · intro k hkk
          simp only [List.length_append, List.length_singleton] at hkk
          have : k = l.length := by omega
          rw [this, ← hcov]
          exact hlt
      · rw [stepCell_active_out ins pW pL target tol pArea l cov c hskip hins]
        exact ⟨hcov, hact, hk, hbound⟩

theorem scanCells_inv (ins : Rect → Bool) (pW pL target tol pArea : ℚ)
    (hT : 0 < target) (htol : 0 ≤ tol) (cells : List (ℚ × ℚ)) :
    ∀ st : ScanSt, ScanInv target tol pArea st →
      ScanInv target tol pArea (scanCells ins pW pL target tol pArea cells st) := by
  induction cells with
  | nil => intro st h; simpa [scanCells] using h
  | cons c cs ih =>
    intro st h
    rw [scanCells_cons]
    exact ih _ (stepCell_inv ins pW pL target tol pArea hT htol st c h)

theorem offsetPlaced_inv (poly : PackPoly) (pW pL spacing target tol : ℚ)
    (hT : 0 < target) (htol : 0 ≤ tol) (off : ℚ × ℚ) :
    pW * pL * ((offsetPlaced poly pW pL spacing target tol off).length) ≤ target + tol ∧
    (∀ k : ℕ, (offsetPlaced poly pW pL spacing target tol off).length = k + 1 →
      pW * pL * k < target) := by
  have h0 : ScanInv target tol (pW * pL) ⟨[], 0, true⟩ := by
    refine ⟨by simp, fun _ => hT, fun k hk => by simp at hk, ?_⟩
    show (0 : ℚ) ≤ target + tol
    linarith
  have := scanCells_inv poly.inside pW pL target tol (pW * pL) hT htol
    (gridCells (pW + spacing) (pL + spacing) (gridColsOf poly pW spacing)
      (gridRowsOf poly pL spacing)
      (baseXOf poly pW spacing + off.1) (baseYOf poly pL spacing + off.2))
    ⟨[], 0, true⟩ h0
  obtain ⟨hcov, _, hk, hbound⟩ := this
  constructor
  · rw [offsetPlaced_eq_scan]; rw [hcov] at hbound; exact hbound
  · intro k hkk
    refine hk k ?_
    rw [offsetPlaced_eq_scan] at hkk; exact hkk

/-- Placed-area bound of the grid packer: with a positive target and a
nonnegative tolerance, the accepted area never exceeds `target + tol`. -/
theorem pack_grid_sumArea_le (poly : PackPoly) (pW pL spacing target : ℚ)
    (offsets : List (ℚ × ℚ)) (tol : ℚ) (hT : 0 < target) (htol : 0 ≤ tol) :
    sumArea (pack_grid poly pW pL spacing target offsets tol) ≤ target + tol := by
  rcases pack_grid_cases poly pW pL spacing target offsets tol with h | ⟨off, _, h⟩
  · rw [h]; simp [sumArea]; linarith
  · rw [h, offsetPlaced_area]
    exact (offsetPlaced_inv poly pW pL spacing target tol hT htol off).1

theorem pack_grid_stop_bound (poly : PackPoly) (pW pL spacing target : ℚ)
    (offsets : List (ℚ × ℚ)) (tol : ℚ) (hT : 0 < target) (htol : 0 ≤ tol) :
    ∀ k : ℕ, (pack_grid poly pW pL spacing target offsets tol).length = k + 1 →
      pW * pL * k < target := by
  rcases pack_grid_cases poly pW pL spacing target offsets tol with h | ⟨off, _, h⟩
  · rw [h]; intro k hk; simp at hk
  · rw [h]
    exact (offsetPlaced_inv poly pW pL spacing target tol hT htol off).2

/-! Monotonicity of the scan in the target area (claim C8's engine). -/

theorem scan_len_ge (ins : Rect → Bool) (pW pL target tol pArea : ℚ)
    (cells : List (ℚ × ℚ)) (st : ScanSt) :
    st.placed.length ≤ (scanCells ins pW pL target tol pArea cells st).placed.length := by
  obtain ⟨ex, h1, _, _, _⟩ := scanCells_spec ins pW pL target tol pArea cells st
  rw [h1]; simp

theorem scan_dead (ins : Rect → Bool) (pW pL target tol pArea : ℚ)
    (cells : List (ℚ × ℚ)) :
    ∀ (l : List Rect) (cov : ℚ),
      (target > 0 ∧ cov + pArea > target ∧ cov + pArea - target > tol) →
      (scanCells ins pW pL target tol pArea cells ⟨l, cov, true⟩).placed = l := by
  induction cells with
  | nil => intro l cov _; simp [scanCells]
  | cons c cs ih =>
    intro l cov h
    rw [scanCells_cons, stepCell_active_skip ins pW pL target tol pArea l cov c h]
    exact ih l cov h

theorem scan_len_mono (ins : Rect → Bool) (pW pL tol pArea : ℚ) (T1 T2 : ℚ)
    (h1 : 0 < T1) (h12 : T1 ≤ T2) (cells : List (ℚ × ℚ)) :
    ∀ (cov : ℚ) (l1 l2 : List Rect), l1.length = l2.length →
      (scanCells ins pW pL T1 tol pArea cells ⟨l1, cov, true⟩).placed.length ≤
      (scanCells ins pW pL T2 tol pArea cells ⟨l2, cov, true⟩).placed.length := by
  induction cells with
  | nil => intro cov l1 l2 hlen; simpa [scanCells] using le_of_eq hlen
  | cons c cs ih =>
    intro cov l1 l2 hlen
    by_cases hskip1 : T1 > 0 ∧ cov + pArea > T1 ∧ cov + pArea - T1 > tol
    · have hdead : (scanCells ins pW pL T1 tol pArea (c :: cs) ⟨l1, cov, true⟩).placed = l1 :=
        scan_dead ins pW pL T1 tol pArea (c :: cs) l1 cov hskip1
      rw [hdead]
      calc l1.length = l2.length := hlen
        _ ≤ _ := scan_len_ge ins pW pL T2 tol pArea (c :: cs) ⟨l2, cov, true⟩
    · have hskip2 : ¬ (T2 > 0 ∧ cov + pArea > T2 ∧ cov + pArea - T2 > tol) := by
        rintro ⟨ht2, hgt2, htol2⟩
        exact hskip1 ⟨h1, by linarith, by linarith⟩
      rw [scanCells_cons, scanCells_cons]
      by_cases hins : ins (cellRect pW pL c) = true
      · rw [stepCell_active_place ins pW pL T1 tol pArea l1 cov c hskip1 hins,
          stepCell_active_place ins pW pL T2 tol pArea l2 cov c hskip2 hins]
        by_cases hge1 : T1 > 0 ∧ cov + pArea ≥ T1
        · rw [if_pos hge1, scanCells_inactive]
          have : (l2 ++ [cellRect pW pL c]).length ≤
              (scanCells ins pW pL T2 tol pArea cs
                ⟨l2 ++ [cellRect pW pL c], cov + pArea,
                  if T2 > 0 ∧ cov + pArea ≥ T2 then false else true⟩).placed.length := by
            by_cases hge2 : T2 > 0 ∧ cov + pArea ≥ T2
            · rw [if_pos hge2, scanCells_inactive]
            · rw [if_neg hge2]
              exact scan_len_ge ins pW pL T2 tol pArea cs
                ⟨l2 ++ [cellRect pW pL c], cov + pArea, true⟩
          simp only [List.length_append, List.length_singleton] at *
          omega
        · have hlt1 : cov + pArea < T1 := by
            rcases not_and_or.mp hge1 with h | h
            · exact absurd h1 h
            · exact lt_of_not_ge h
          have hge2 : ¬ (T2 > 0 ∧ cov + pArea ≥ T2) := by
            rintro ⟨_, hge⟩
            linarith
          rw [if_neg hge1, if_neg hge2]
          exact ih (cov + pArea) (l1 ++ [cellRect pW pL c]) (l2 ++ [cellRect pW pL c])
            (by simp [hlen])
      · rw [stepCell_active_out ins pW pL T1 tol pArea l1 cov c hskip1 hins,
          stepCell_active_out ins pW pL T2 tol pArea l2 cov c hskip2 hins]
        exact ih cov l1 l2 hlen

theorem offsetPlaced_len_mono (poly : PackPoly) (pW pL spacing tol : ℚ) (T1 T2 : ℚ)
    (h1 : 0 < T1) (h12 : T1 ≤ T2) (off : ℚ × ℚ) :
    (offsetPlaced poly pW pL spacing T1 tol off).length ≤
    (offsetPlaced poly pW pL spacing T2 tol off).length := by
  rw [offsetPlaced_eq_scan, offsetPlaced_eq_scan]
  exact scan_len_mono poly.inside pW pL tol (pW * pL) T1 T2 h1 h12 _ 0 [] [] rfl

theorem pack_grid_len_mono (poly : PackPoly) (pW pL spacing tol : ℚ) (T1 T2 : ℚ)
    (offsets : List (ℚ × ℚ)) (h1 : 0 < T1) (h12 : T1 ≤ T2) (hpA : 0 < pW * pL) :
    (pack_grid poly pW pL spacing T1 offsets tol).length ≤
    (pack_grid poly pW pL spacing T2 offsets tol).length := by
  unfold pack_grid
  by_cases hz : gridColsOf poly pW spacing = 0 ∨ gridRowsOf poly pL spacing = 0
  · rw [if_pos hz, if_pos hz]
  · rw [if_neg hz, if_neg hz]
    suffices h : ∀ (offs : List (ℚ × ℚ)) (acc1 acc2 : List Rect),
        sumArea acc1 = pW * pL * acc1.length → sumArea acc2 = pW * pL * acc2.length →
        acc1.length ≤ acc2.length →
        (sumArea (offs.foldl (fun best off =>
            let placed := offsetPlaced poly pW pL spacing T1 tol off
            if sumArea placed > sumArea best then placed else best) acc1) =
          pW * pL * (offs.foldl (fun best off =>
            let placed := offsetPlaced poly pW pL spacing T1 tol off
            if sumArea placed > sumArea best then placed else best) acc1).length) ∧
        (offs.foldl (fun best off =>
          let placed := offsetPlaced poly pW pL spacing T1 tol off
          if sumArea placed > sumArea best then placed else best) acc1).length ≤
        (offs.foldl (fun best off =>
          let placed := offsetPlaced poly pW pL spacing T2 tol off
          if sumArea placed > sumArea best then placed else best) acc2).length by
      exact (h offsets [] [] (by simp [sumArea]) (by simp [sumArea]) le_rfl).2
    intro offs
    induction offs with
    | nil => intro acc1 acc2 ha1 _ hle; exact ⟨ha1, by simpa using hle⟩
    | cons o os ih =>
      intro acc1 acc2 ha1 ha2 hle
      simp only [List.foldl_cons]
      have hp1 := offsetPlaced_area poly pW pL spacing T1 tol o
      have hp2 := offsetPlaced_area poly pW pL spacing T2 tol o
      have hplen := offsetPlaced_len_mono poly pW pL spacing tol T1 T2 h1 h12 o
      have key : ∀ (T : ℚ) (acc : List Rect), sumArea acc = pW * pL * acc.length →
          sumArea (offsetPlaced poly pW pL spacing T tol o) =
            pW * pL * (offsetPlaced poly pW pL spacing T tol o).length →
          (if sumArea (offsetPlaced poly pW pL spacing T tol o) > sumArea acc
            then offsetPlaced poly pW pL spacing T tol o else acc).length =
            max acc.length (offsetPlaced poly pW pL spacing T tol o).length ∧
          sumArea (if sumArea (offsetPlaced poly pW pL spacing T tol o) > sumArea acc
            then offsetPlaced poly pW pL spacing T tol o else acc) =
            pW * pL * (if sumArea (offsetPlaced poly pW pL spacing T tol o) > sumArea acc
              then offsetPlaced poly pW pL spacing T tol o else acc).length := by
        intro T acc hacc hop
        split_ifs with hcmp
        · refine ⟨?_, hop⟩
          rw [hacc, hop] at hcmp
          have : (acc.length : ℚ) < (offsetPlaced poly pW pL spacing T tol o).length := by
            exact lt_of_mul_lt_mul_left (by linarith) (le_of_lt hpA)
          have hlt : acc.length < (offsetPlaced poly pW pL spacing T tol o).length := by
            exact_mod_cast this
          omega
        · refine ⟨?_, hacc⟩
          rw [hacc, hop] at hcmp
          have : (offsetPlaced poly pW pL spacing T tol o).length * (pW * pL) ≤
              acc.length * (pW * pL) := by
            nlinarith [le_of_not_lt hcmp]
          have hlee : (offsetPlaced poly pW pL spacing T tol o).length ≤ acc.length := by
            have := le_of_mul_le_mul_right this hpA
            exact_mod_cast this
          omega
      obtain ⟨hl1, hinv1⟩ := key T1 acc1 ha1 hp1
      obtain ⟨hl2, hinv2⟩ := key T2 acc2 ha2 hp2
      refine ih _ _ hinv1 hinv2 ?_
      rw [hl1, hl2]
      exact max_le_max hle hplen

/-! Pairwise disjointness of the grid placements (claim C2's engine). -/

theorem rowCells_mem (sX : ℚ) (hsx : 0 ≤ sX) :
    ∀ (n : ℕ) (x y : ℚ) (c : ℚ × ℚ), c ∈ rowCells sX n x y → c.2 = y ∧ x ≤ c.1 := by
  intro n
  induction n with
  | zero => intro x y c hc; simp [rowCells] at hc
  | succ n ih =>
    intro x y c hc
    rcases List.mem_cons.mp hc with h | h
    · rw [h]; exact ⟨rfl, le_refl x⟩
    · obtain ⟨h1, h2⟩ := ih (x + sX) y c h
      exact ⟨h1, by linarith⟩

theorem rowCells_pairwise (sX : ℚ) (hsx : 0 ≤ sX) :
    ∀ (n : ℕ) (x y : ℚ),
      (rowCells sX n x y).Pairwise (fun c c' => c.1 + sX ≤ c'.1 ∧ c.2 = c'.2) := by
  intro n
  induction n with
  | zero => intro x y; simp [rowCells]
  | succ n ih =>
    intro x y
    rw [rowCells]
    refine List.Pairwise.cons ?_ (ih (x + sX) y)
    intro c' hc'
    obtain ⟨h1, h2⟩ := rowCells_mem sX hsx n (x + sX) y c' hc'
    exact ⟨h2, h1.symm⟩

theorem gridCells_mem (sX sY : ℚ) (hsy : 0 ≤ sY) (cols : ℕ) :
    ∀ (r : ℕ) (x y : ℚ) (c : ℚ × ℚ), c ∈ gridCells sX sY cols r x y → y ≤ c.2 := by
  intro r
  induction r with
  | zero => intro x y c hc; simp [gridCells] at hc
  | succ r ih =>
    intro x y c hc
    rcases List.mem_append.mp hc with h | h
    · by_cases hsx : 0 ≤ sX
      · exact le_of_eq (rowCells_mem sX hsx cols x y c h).1.symm
      · exact le_of_eq (by
          clear ih hc
          induction cols generalizing x with
          | zero => simp [rowCells] at h
          | succ m ihm =>
            rcases List.mem_cons.mp h with hh | hh
            · rw [hh]
            · exact ihm (x + sX) hh)
    · have := ih x (y + sY) c h
      linarith

theorem gridCells_pairwise (sX sY : ℚ) (hsx : 0 ≤ sX) (hsy : 0 ≤ sY) (cols : ℕ) :
    ∀ (r : ℕ) (x y : ℚ),
      (gridCells sX sY cols r x y).Pairwise
        (fun c c' => c.1 + sX ≤ c'.1 ∨ c.2 + sY ≤ c'.2) := by
  intro r
  induction r with
  | zero => intro x y; simp [gridCells]
  | succ r ih =>
    intro x y
    rw [gridCells]
    rw [List.pairwise_append]
    refine ⟨?_, ih x (y + sY), ?_⟩
    · exact (rowCells_pairwise sX hsx cols x y).imp fun h => Or.inl h.1
    · intro a ha b hb
      have h1 := (rowCells_mem sX hsx cols x y a ha).1
      have h2 := gridCells_mem sX sY hsy cols r x (y + sY) b hb
      right
      rw [h1]
      linarith

theorem interArea_zero_of_sep {pW pL spacing : ℚ} (hsp : 0 ≤ spacing) (c c' : ℚ × ℚ)
    (h : c.1 + (pW + spacing) ≤ c'.1 ∨ c.2 + (pL + spacing) ≤ c'.2) :
    interArea (cellRect pW pL c) (cellRect pW pL c') = 0 := by
  rcases h with h | h
  · have hfac : min (cellRect pW pL c).x1 (cellRect pW pL c').x1 -
        max (cellRect pW pL c).x0 (cellRect pW pL c').x0 ≤ 0 := by
      simp only [cellRect]
      have h1 : min (c.1 + pW) (c'.1 + pW) ≤ c.1 + pW := min_le_left _ _
      have h2 : c'.1 ≤ max c.1 c'.1 := le_max_right _ _
      linarith
    unfold interArea
    rw [max_eq_left hfac, zero_mul]
  · have hfac : min (cellRect pW pL c).y1 (cellRect pW pL c').y1 -
        max (cellRect pW pL c).y0 (cellRect pW pL c').y0 ≤ 0 := by
      simp only [cellRect]
      have h1 : min (c.2 + pL) (c'.2 + pL) ≤ c.2 + pL := min_le_left _ _
      have h2 : c'.2 ≤ max c.2 c'.2 := le_max_right _ _
      linarith
    unfold interArea
    rw [max_eq_left hfac, mul_zero]

/-- Placements from one grid-pack call have pairwise intersection area
zero: distinct cells of the centered grid are separated by at least one
panel side plus the (nonnegative) spacing. -/
theorem pack_grid_pairwise (poly : PackPoly) (pW pL spacing target : ℚ)
    (offsets : List (ℚ × ℚ)) (tol : ℚ)
    (hpW : 0 ≤ pW) (hpL : 0 ≤ pL) (hsp : 0 ≤ spacing) :
    (pack_grid poly pW pL spacing target offsets tol).Pairwise
      (fun a b => interArea a b = 0) := by
  rcases pack_grid_cases poly pW pL spacing target offsets tol with h | ⟨off, _, h⟩
  · rw [h]; exact List.Pairwise.nil
  · rw [h]
    refine List.Pairwise.sublist (offsetPlaced_spec poly pW pL spacing target tol off).1 ?_
    rw [List.pairwise_map]
    refine (gridCells_pairwise (pW + spacing) (pL + spacing) (by linarith) (by linarith)
      (gridColsOf poly pW spacing) (gridRowsOf poly pL spacing) _ _).imp ?_
    exact fun h' => interArea_zero_of_sep hsp _ _ h'

/-- Rectangles with a nonzero intersection area share a common point. -/
theorem interArea_ne_zero_common (a b : Rect) (h : interArea a b ≠ 0) :
    ∃ p : ℚ × ℚ, p ∈ a.toSet ∧ p ∈ b.toSet := by
  unfold interArea at h
  have h1 : max 0 (min a.x1 b.x1 - max a.x0 b.x0) ≠ 0 := fun hz => h (by rw [hz, zero_mul])
  have h2 : max 0 (min a.y1 b.y1 - max a.y0 b.y0) ≠ 0 := fun hz => h (by rw [hz, mul_zero])
  have hx : max a.x0 b.x0 < min a.x1 b.x1 := by
    by_contra hc
    exact h1 (max_eq_left (by linarith [le_of_not_lt hc]))
  have hy : max a.y0 b.y0 < min a.y1 b.y1 := by
    by_contra hc
    exact h2 (max_eq_left (by linarith [le_of_not_lt hc]))
  refine ⟨(max a.x0 b.x0, max a.y0 b.y0), ?_, ?_⟩
  · refine ⟨le_max_left _ _, ?_, le_max_left _ _, ?_⟩
    · exact le_of_lt (lt_of_lt_of_le hx (min_le_left _ _))
    · exact le_of_lt (lt_of_lt_of_le hy (min_le_left _ _))
  · refine ⟨le_max_right _ _, ?_, le_max_right _ _, ?_⟩
    · exact le_of_lt (lt_of_lt_of_le hx (min_le_right _ _))
    · exact le_of_lt (lt_of_lt_of_le hy (min_le_right _ _))

/-- Translation of `pack_all_parts` (closure inside `_try_angle_pack`):
pack the parts of a possibly multi-part usable region in order, each
with the four phase offsets, carrying the remaining target-area budget
across parts and stopping once the budget is exhausted. -/
def pack_all_parts (pW pL spacing tol : ℚ) : List PackPoly → ℚ → List Rect
  | [], _ => []
  | part :: rest, remaining =>
    let offsets : List (ℚ × ℚ) :=
      [(0, 0), ((pW + spacing) / 2, 0), (0, (pL + spacing) / 2),
       ((pW + spacing) / 2, (pL + spacing) / 2)]
    let placed := pack_grid part pW pL spacing remaining offsets tol
    if remaining - sumArea placed ≤ 0 then placed
    else placed ++ pack_all_parts pW pL spacing tol rest (remaining - sumArea placed)

theorem pack_all_parts_mem (pW pL spacing tol : ℚ) :
    ∀ (parts : List PackPoly) (remaining : ℚ),
      ∀ r ∈ pack_all_parts pW pL spacing tol parts remaining,
        ∃ pp ∈ parts, pp.inside r = true := by
  intro parts
  induction parts with
  | nil => intro remaining r hr; simp [pack_all_parts] at hr
  | cons part rest ih =>
    intro remaining r hr
    rw [pack_all_parts] at hr
    by_cases hbrk : remaining - sumArea (pack_grid part pW pL spacing remaining
        [(0, 0), ((pW + spacing) / 2, 0), (0, (pL + spacing) / 2),
         ((pW + spacing) / 2, (pL + spacing) / 2)] tol) ≤ 0
    · rw [if_pos hbrk] at hr
      exact ⟨part, by simp, pack_grid_mem_inside part pW pL spacing remaining _ tol r hr⟩
    · rw [if_neg hbrk] at hr
      rcases List.mem_append.mp hr with h | h
      · exact ⟨part, by simp, pack_grid_mem_inside part pW pL spacing remaining _ tol r h⟩
      · obtain ⟨pp, hpp, hins⟩ := ih _ r h
        exact ⟨pp, List.mem_cons_of_mem _ hpp, hins⟩

/-- Mutual non-overlap of the panels packed over all parts: panels of one
part lie on a spaced grid, and panels of different parts lie in disjoint
carriers. -/
theorem pack_all_parts_pairwise (pW pL spacing tol : ℚ)
    (hpW : 0 ≤ pW) (hpL : 0 ≤ pL) (hsp : 0 ≤ spacing) :
    ∀ (parts : List PackPoly),
      (∀ pp ∈ parts, ∀ r : Rect, pp.inside r = true → r.toSet ⊆ pp.carrier) →
      parts.Pairwise (fun a b => Disjoint a.carrier b.carrier) →
      ∀ remaining : ℚ,
        (pack_all_parts pW pL spacing tol parts remaining).Pairwise
          (fun a b => interArea a b = 0) := by
  intro parts
  induction parts with
  | nil => intro _ _ remaining; simp [pack_all_parts]
  | cons part rest ih =>
    intro hsound hdisj remaining
    have hsound_head := hsound part (by simp)
    have hsound_rest : ∀ pp ∈ rest, ∀ r : Rect, pp.inside r = true → r.toSet ⊆ pp.carrier :=
      fun pp hpp => hsound pp (List.mem_cons_of_mem _ hpp)
    have hdisj_head : ∀ pp ∈ rest, Disjoint part.carrier pp.carrier :=
      (List.pairwise_cons.mp hdisj).1
    have hdisj_rest := (List.pairwise_cons.mp hdisj).2
    rw [pack_all_parts]
    by_cases hbrk : remaining - sumArea (pack_grid part pW pL spacing remaining
        [(0, 0), ((pW + spacing) / 2, 0), (0, (pL + spacing) / 2),
         ((pW + spacing) / 2, (pL + spacing) / 2)] tol) ≤ 0
    · rw [if_pos hbrk]
      exact pack_grid_pairwise part pW pL spacing remaining _ tol hpW hpL hsp
    · rw [if_neg hbrk]
      rw [List.pairwise_append]
      refine ⟨pack_grid_pairwise part pW pL spacing remaining _ tol hpW hpL hsp,
        ih hsound_rest hdisj_rest _, ?_⟩
      intro a ha b hb
      by_contra hne
      obtain ⟨p, hpa, hpb⟩ := interArea_ne_zero_common a b hne
      have hain : part.inside a = true :=
        pack_grid_mem_inside part pW pL spacing remaining _ tol a ha
      obtain ⟨pp, hpp, hbin⟩ := pack_all_parts_mem pW pL spacing tol rest _ b hb
      have hpa' : p ∈ part.carrier := hsound_head a hain hpa
      have hpb' : p ∈ pp.carrier := hsound_rest pp hpp b hbin hpb
      exact Set.disjoint_left.mp (hdisj_head pp hpp) hpa' hpb'

theorem sumArea_append (l1 l2 : List Rect) :
    sumArea (l1 ++ l2) = sumArea l1 + sumArea l2 := by
  simp [sumArea]

theorem sumArea_nonneg_of_grid (poly : PackPoly) (pW pL spacing target : ℚ)
    (offsets : List (ℚ × ℚ)) (tol : ℚ) (hpA : 0 ≤ pW * pL) :
    0 ≤ sumArea (pack_grid poly pW pL spacing target offsets tol) := by
  rw [pack_grid_area]
  exact mul_nonneg hpA (Nat.cast_nonneg _)

/-- Budget bound of the multi-part packing: with a positive starting
budget and a nonnegative tolerance, the total area placed over all parts
is at most `remaining + tol`. -/
theorem pack_all_parts_bound (pW pL spacing tol : ℚ) (htol : 0 ≤ tol) :
    ∀ (parts : List PackPoly) (remaining : ℚ), 0 < remaining →
      sumArea (pack_all_parts pW pL spacing tol parts remaining) ≤ remaining + tol := by
  intro parts
  induction parts with
  | nil => intro remaining h; simp [pack_all_parts, sumArea]; linarith
  | cons part rest ih =>
    intro remaining hrem
    rw [pack_all_parts]
    set placed := pack_grid part pW pL spacing remaining
      [(0, 0), ((pW + spacing) / 2, 0), (0, (pL + spacing) / 2),
       ((pW + spacing) / 2, (pL + spacing) / 2)] tol with hplaced
    have hbound : sumArea placed ≤ remaining + tol :=
      pack_grid_sumArea_le part pW pL spacing remaining _ tol hrem htol
    by_cases hbrk : remaining - sumArea placed ≤ 0
    · rw [if_pos hbrk]; exact hbound
    · rw [if_neg hbrk]
      rw [sumArea_append]
      have hrem' : 0 < remaining - sumArea placed := by linarith [lt_of_not_ge hbrk]
      have := ih (remaining - sumArea placed) hrem'
      linarith

/-! Obstacle subtraction with the relaxation ladder, the per-angle
packing attempt, and the full layout pipeline.  A `Region` abstracts one
shapely geometry as the pipeline observes it: emptiness flag, area, the
list of parts handed to the packer (`poly.geoms` for a multi-polygon,
the polygon itself otherwise) and the point-set carrier. -/

/-- Abstract shapely geometry as observed by the pipeline. -/
structure Region where
  isEmpty : Bool
  area : ℚ
  parts : List PackPoly
  carrier : Set (ℚ × ℚ)

/-- Oracle geometry of one candidate angle at one boundary clearance:
the rotated and eroded roof polygon (`affinity.rotate` then
`buffer(-clearance_px)`), the plain difference with the obstacle union
(`poly_rot.difference(obs_union)`), and the difference with the obstacle
union shrunk by `relax_px` (`poly_rot.difference(obs_union.buffer(-relax_px))`). -/
structure AngleGeom where
  eroded : Region
  diffInit : Region
  diffAt : ℚ → Region

/-- Warning string appended when the relaxation ladder accepts a rung. -/
def relaxMsg : String := "Obstacle mask relaxed to retain sufficient usable area."

/-- Warning string appended when obstacles are disabled for an angle. -/
def disabledMsg : String := "Obstacle mask disabled (covered nearly whole roof)."

/-- Warning string appended when the last-resort fallback runs. -/
def fallbackMsg : String :=
  "Packing fallback: reduced spacing and boundary ring for a minimal fit."

/-- Ladder of buffer-retention fractions tried by the subtractor
(`for frac in (0.75, 0.5, 0.25, 0.0)`); the shrink applied to the
obstacle buffer is `obstacle_clearance_px * (1 - frac)`, i.e. 25%, 50%,
75%, 100% of the clearance in that order. -/
def obstacleLadderFracs : List ℚ := [3 / 4, 1 / 2, 1 / 4, 0]

/-- Loop body of the relaxation ladder: overwrite `usable` with the
difference at the current rung, stop at the first rung that is nonempty
and retains at least 12% of the pre-subtraction area. -/
def ladderGo (g : AngleGeom) (obsClearPx : ℚ) : List ℚ → Region → Region × Bool
  | [], u => (u, false)
  | f :: rest, _ =>
    let u := g.diffAt (obsClearPx * (1 - f))
    if u.isEmpty = false ∧ u.area ≥ 12 / 100 * g.eroded.area then (u, true)
    else ladderGo g obsClearPx rest u

/-- Translation of the `subtractor` closure of `layout_panels`: return
the rotated polygon untouched when there is no obstacle union; otherwise
subtract, run the relaxation ladder when the remainder is empty or below
12% of the pre-subtraction area, and disable obstacles (with a warning)
only when the final ladder region is empty. -/
def subtractor_model (g : AngleGeom) (obsPresent : Bool) (obsClearPx : ℚ) :
    Region × List String :=
  if obsPresent = false then (g.eroded, [])
  else
    let usable := g.diffInit
    if usable.isEmpty = true ∨ usable.area < 12 / 100 * g.eroded.area then
      let res := ladderGo g obsClearPx obstacleLadderFracs usable
      if res.2 = true then (res.1, [relaxMsg])
      else if res.1.isEmpty = true then (g.eroded, [disabledMsg])
      else (res.1, [])
    else (usable, [])

/-- Which region the subtractor adopted: no obstacle subtraction in
force, the initial difference, or the difference at a relaxation
shrink of `t` pixels. -/
inductive ObsChoice where
  | noObs : ObsChoice
  | init : ObsChoice
  | relaxedAt : ℚ → ObsChoice
deriving DecidableEq, Repr

/-- Region denoted by an `ObsChoice`. -/
def region_of_choice (g : AngleGeom) : ObsChoice → Region
  | ObsChoice.noObs => g.eroded
  | ObsChoice.init => g.diffInit
  | ObsChoice.relaxedAt t => g.diffAt t

/-- First accepted rung of the ladder, as a shrink amount in pixels. -/
def ladder_choice (g : AngleGeom) (obsClearPx : ℚ) : List ℚ → Option ℚ
  | [] => none
  | f :: rest =>
    let u := g.diffAt (obsClearPx * (1 - f))
    if u.isEmpty = false ∧ u.area ≥ 12 / 100 * g.eroded.area then some (obsClearPx * (1 - f))
    else ladder_choice g obsClearPx rest

/-- Choice made by `subtractor_model`, mirroring its branch structure. -/
def subtractor_choice (g : AngleGeom) (obsPresent : Bool) (obsClearPx : ℚ) : ObsChoice :=
  if obsPresent = false then ObsChoice.noObs
  else
    let usable := g.diffInit
    if usable.isEmpty = true ∨ usable.area < 12 / 100 * g.eroded.area then
      match ladder_choice g obsClearPx obstacleLadderFracs with
      | some t => ObsChoice.relaxedAt t
      | none =>
        if (g.diffAt (obsClearPx * (1 - 0))).isEmpty = true then ObsChoice.noObs
        else ObsChoice.relaxedAt (obsClearPx * (1 - 0))
    else ObsChoice.init

theorem ladderGo_concrete (g : AngleGeom) (c : ℚ) (u0 : Region) :
    (ladder_choice g c obstacleLadderFracs = none →
      ladderGo g c obstacleLadderFracs u0 = (g.diffAt (c * (1 - 0)), false)) ∧
    (∀ t : ℚ, ladder_choice g c obstacleLadderFracs = some t →
      ladderGo g c obstacleLadderFracs u0 = (g.diffAt t, true)) := by
  simp only [obstacleLadderFracs, ladderGo, ladder_choice]
  split_ifs <;> simp_all

/-- Coherence of the subtractor with its choice tag. -/
theorem subtractor_model_region (g : AngleGeom) (obsPresent : Bool) (obsClearPx : ℚ) :
    (subtractor_model g obsPresent obsClearPx).1 =
      region_of_choice g (subtractor_choice g obsPresent obsClearPx) := by
  unfold subtractor_model subtractor_choice
  by_cases hob : obsPresent = false
  · rw [if_pos hob, if_pos hob]; rfl
  · rw [if_neg hob, if_neg hob]
    by_cases hbad : g.diffInit.isEmpty = true ∨ g.diffInit.area < 12 / 100 * g.eroded.area
    · rw [if_pos hbad, if_pos hbad]
      rcases hcase : ladder_choice g obsClearPx obstacleLadderFracs with _ | t
      · have hgo := (ladderGo_concrete g obsClearPx g.diffInit).1 hcase
        rw [hgo]
        have h10 : obsClearPx * (1 - 0) = obsClearPx := by ring
        rw [h10]
        by_cases hemp : (g.diffAt obsClearPx).isEmpty = true
        · simp [hemp, region_of_choice]
        · simp [hemp, region_of_choice]
      · have hgo := (ladderGo_concrete g obsClearPx g.diffInit).2 t hcase
        rw [hgo]
        simp [region_of_choice]
    · rw [if_neg hbad, if_neg hbad]; rfl

/-- Outcome of one `_try_angle_pack` call (panels kept in the rotated
frame; the source rotates them back with an inverse rotation). -/
structure PackOutcome where
  panels : List Rect
  dimsUsed : ℚ × ℚ
  usablePx : ℚ
  placedPx : ℚ
  targetPx : ℚ
deriving DecidableEq, Repr

/-- Translation of `_try_angle_pack`: erode (oracle), subtract obstacles
(with ladder) unless the identity subtractor is in use, fix the target
area (roof-relative or usable-relative), pack both panel orientations
over all parts, and keep the orientation with the larger placed area. -/
def try_angle_pack (g : AngleGeom) (useSub obsPresent : Bool)
    (obsClearPx spacingPx targetFillFrac : ℚ) (panelDims : ℚ × ℚ)
    (pxPerM roofAreaPx : ℚ) (fillRelativeTo : String) (overshootFrac : ℚ) :
    PackOutcome × List String :=
  let Lm := panelDims.1
  let Wm := panelDims.2
  if g.eroded.isEmpty = true then (⟨[], (Lm, Wm), 0, 0, 0⟩, [])
  else
    let su := if useSub = true then subtractor_model g obsPresent obsClearPx
              else (g.eroded, [])
    if su.1.isEmpty = true then (⟨[], (Lm, Wm), 0, 0, 0⟩, su.2)
    else
      let usableAreaPx := su.1.area
      let targetAreaPx :=
        if fillRelativeTo = "roof" ∧ roofAreaPx > 0 then roofAreaPx * targetFillFrac
        else usableAreaPx * targetFillFrac
      let placed_p := pack_all_parts (Wm * pxPerM) (Lm * pxPerM) spacingPx
        (Wm * pxPerM * (Lm * pxPerM) * overshootFrac) su.1.parts targetAreaPx
      let placed_l := pack_all_parts (Lm * pxPerM) (Wm * pxPerM) spacingPx
        (Lm * pxPerM * (Wm * pxPerM) * overshootFrac) su.1.parts targetAreaPx
      if sumArea placed_l > sumArea placed_p then
        (⟨placed_l, (Wm, Lm), usableAreaPx, sumArea placed_l, targetAreaPx⟩, su.2)
      else
        (⟨placed_p, (Lm, Wm), usableAreaPx, sumArea placed_p, targetAreaPx⟩, su.2)

/-- Catalog of panel presets (`PANEL_SPECS`): name, length (m), width
(m), nominal watts. -/
def PANEL_SPECS : List (String × ℚ × ℚ × ℕ) :=
  [("tiny", (17 / 10, 1, 340)), ("small", (2, 1, 400)),
   ("medium", (1139 / 500, 567 / 500, 520)), ("large", (298 / 125, 1303 / 1000, 620))]

/-- Translation of the `LayoutParams` dataclass. -/
structure LayoutParams where
  panel_size : String
  fill_pct : ℚ
  spacing_m : ℚ
  edge_clearance_m : ℚ
  min_boundary_clearance_m : ℚ
  obstacle_clearance_m : ℚ
  obstacle_mode : String
  angle_deg : Option ℚ
  fill_relative_to : String
  overshoot_tolerance_frac : ℚ
deriving DecidableEq, Repr

/-- Fatal error kinds of the pipeline, named as in the specification:
no roof contour, zero-area mask, and the two parameter-validation
failures. -/
inductive LayoutError where
  | noRoofDetected : LayoutError
  | zeroAreaMask : LayoutError
  | invalidFillPercentage : LayoutError
  | unknownPanelSize : LayoutError
deriving DecidableEq, Repr

/-- Translation of `_m_per_px_from_area`: fail when the mask has no
pixels, otherwise return `roof_area_m2 / area_px`.  The source returns
`math.sqrt` of this value; the square root is a numeric-library call, so
the model carries the radicand and the accompanying theorem relates it
to `Real.sqrt`. -/
def m_per_px_from_area (roofAreaM2 : ℚ) (maskAreaPx : ℕ) : Except String ℚ :=
  if maskAreaPx = 0 then Except.error "Roof mask area is zero"
  else Except.ok (roofAreaM2 / (maskAreaPx : ℚ))

/-- Oracle for the raster stages of the pipeline: whether a roof contour
was found, the mask pixel count, the numeric pixel scale (`1 / m_per_px`,
a square root computed by the numeric library), the principal-axis
orientation, which obstacle-detector modes find any obstacle, and the
per-angle, per-clearance rotated geometry. -/
structure ImageOracle where
  contourFound : Bool
  maskAreaPx : ℕ
  pxPerM : ℚ
  roofAxis : ℚ
  obsNonempty : String → Bool
  geom : ℚ → ℚ → AngleGeom

/-- Floor-based modulus on ℚ, matching Python's `%` for a positive
modulus. -/
def floorMod (a m : ℚ) : ℚ := a - m * (⌊a / m⌋ : ℤ)

/-- Normalization `((a % 180) + 180) % 180` of a candidate angle. -/
def normAngle (a : ℚ) : ℚ := floorMod (floorMod a 180 + 180) 180

/-- Candidate angle list: the user angle (if any) with its +90, +5 and
-5 variants, then the roof axis with the same variants, all normalized. -/
def angles_to_try (O : ImageOracle) (p : LayoutParams) : List ℚ :=
  ((match p.angle_deg with
    | some a => [a, a + 90, a + 5, a - 5]
    | none => []) ++
   [O.roofAxis, O.roofAxis + 90, O.roofAxis + 5, O.roofAxis - 5]).map normAngle

/-- Effective boundary ring `max(edge_clearance_m, min_boundary_clearance_m)`. -/
def edgeClearEff (p : LayoutParams) : ℚ :=
  max p.edge_clearance_m p.min_boundary_clearance_m

/-- Whether `rotated_obs_union` returns an obstacle union: never in mode
`"off"`; otherwise some tried detector mode must find obstacles
(`"auto"` tries `auto` then `light`). -/
def obs_present (O : ImageOracle) (p : LayoutParams) : Bool :=
  if p.obstacle_mode = "off" then false
  else
    (if p.obstacle_mode = "auto" then ["auto", "light"] else [p.obstacle_mode]).any
      O.obsNonempty

/-- Selected panel spec (length, width, watts); the default is never
used after a successful catalog lookup. -/
def specOf (p : LayoutParams) : ℚ × ℚ × ℕ :=
  (PANEL_SPECS.lookup p.panel_size).getD (0, 0, 0)

/-- One iteration of the packing loop over angles. -/
def angle_run (O : ImageOracle) (p : LayoutParams) (a : ℚ) : PackOutcome × List String :=
  try_angle_pack (O.geom a (edgeClearEff p * O.pxPerM)) true (obs_present O p)
    (p.obstacle_clearance_m * O.pxPerM) (p.spacing_m * O.pxPerM) (p.fill_pct / 100)
    ((specOf p).1, (specOf p).2.1) O.pxPerM (O.maskAreaPx : ℚ) p.fill_relative_to
    p.overshoot_tolerance_frac

/-- Best-delta selection over the angle runs: strict improvement of
`|placed - target|`, with an infinite initial best delta (`none`). -/
def select_best : List (ℚ × PackOutcome) → PackOutcome × ℚ × Option ℚ →
    PackOutcome × ℚ × Option ℚ
  | [], acc => acc
  | (a, oc) :: rest, (bo, ba, bd) =>
    let delta := |oc.placedPx - oc.targetPx|
    let better : Bool := match bd with
      | none => true
      | some d => decide (delta < d)
    if better = true then select_best rest (oc, a, some delta)
    else select_best rest (bo, ba, bd)

/-- Winner of the main angle loop, with the angle it used. -/
def main_best (O : ImageOracle) (p : LayoutParams) : PackOutcome × ℚ :=
  let angles := angles_to_try O p
  let init : PackOutcome := ⟨[], ((specOf p).1, (specOf p).2.1), 0, 0, 0⟩
  let r := select_best (angles.map fun a => (a, (angle_run O p a).1))
    (init, angles.headD 0, none)
  (r.1, r.2.1)

/-- Warnings accumulated by the main angle loop, in angle order. -/
def main_warnings (O : ImageOracle) (p : LayoutParams) : List String :=
  ((angles_to_try O p).map fun a => (angle_run O p a).2).flatten

/-- Boundary clearance (in pixels) used by the last-resort fallback:
`max(0.30, 0.8 * effective) * px_per_m`. -/
def fb_clear_px (O : ImageOracle) (p : LayoutParams) : ℚ :=
  max (3 / 10) (edgeClearEff p * (8 / 10)) * O.pxPerM

/-- Spacing (in pixels) used by the last-resort fallback:
`max(0.02 * px_per_m, 0.75 * spacing_px)`. -/
def fb_spacing_px (O : ImageOracle) (p : LayoutParams) : ℚ :=
  max (2 / 100 * O.pxPerM) (p.spacing_m * O.pxPerM * (3 / 4))

/-- Last-resort packing attempt at the roof axis with the identity
subtractor (`lambda p: p`, obstacles off). -/
def fallback_run (O : ImageOracle) (p : LayoutParams) : PackOutcome :=
  (try_angle_pack (O.geom O.roofAxis (fb_clear_px O p)) false false
    (p.obstacle_clearance_m * O.pxPerM) (fb_spacing_px O p) (p.fill_pct / 100)
    ((specOf p).1, (specOf p).2.1) O.pxPerM (O.maskAreaPx : ℚ) p.fill_relative_to
    p.overshoot_tolerance_frac).1

/-- Observable output of `layout_panels`: the winning placements (in the
rotated frame), the headline statistics and the warnings list. -/
structure LayoutOut where
  panels : List Rect
  panelsCount : ℕ
  dimsUsed : ℚ × ℚ
  angleUsed : ℚ
  usablePx : ℚ
  placedPx : ℚ
  targetPx : ℚ
  capacityKWp : ℚ
  warnings : List String
deriving DecidableEq, Repr

/-- Successful result assembly: winner of the angle loop, or the
last-resort fallback (with its warning appended) when no angle placed a
panel. -/
def layout_out (O : ImageOracle) (p : LayoutParams) : LayoutOut :=
  if (main_best O p).1.panels = [] then
    ⟨(fallback_run O p).panels, (fallback_run O p).panels.length,
     (fallback_run O p).dimsUsed, O.roofAxis, (fallback_run O p).usablePx,
     (fallback_run O p).placedPx, (fallback_run O p).targetPx,
     ((specOf p).2.2 : ℚ) * (fallback_run O p).panels.length / 1000,
     main_warnings O p ++ [fallbackMsg]⟩
  else
    ⟨(main_best O p).1.panels, (main_best O p).1.panels.length,
     (main_best O p).1.dimsUsed, (main_best O p).2, (main_best O p).1.usablePx,
     (main_best O p).1.placedPx, (main_best O p).1.targetPx,
     ((specOf p).2.2 : ℚ) * (main_best O p).1.panels.length / 1000,
     main_warnings O p⟩

/-- Translation of `layout_panels`: validation (fill percentage, then
catalog lookup) before any raster work, mask extraction, pixel scale,
the angle loop with best-delta selection, and the last-resort fallback
when no angle placed a panel. -/
def layout_panels (O : ImageOracle) (roofAreaM2 : ℚ) (_roofLengthM _roofWidthM : Option ℚ)
    (p : LayoutParams) : Except LayoutError LayoutOut :=
  if ¬ (30 ≤ p.fill_pct ∧ p.fill_pct ≤ 90) then
    Except.error LayoutError.invalidFillPercentage
  else if (PANEL_SPECS.lookup p.panel_size).isNone then
    Except.error LayoutError.unknownPanelSize
  else if O.contourFound = false then Except.error LayoutError.noRoofDetected
  else
    match m_per_px_from_area roofAreaM2 O.maskAreaPx with
    | Except.error _ => Except.error LayoutError.zeroAreaMask
    | Except.ok _ => Except.ok (layout_out O p)

/-- Geometry used by the packing call that produced the accepted result. -/
def winning_geom (O : ImageOracle) (p : LayoutParams) : AngleGeom :=
  if (main_best O p).1.panels = [] then O.geom O.roofAxis (fb_clear_px O p)
  else O.geom (main_best O p).2 (edgeClearEff p * O.pxPerM)

/-- Obstacle choice in force for the accepted result (the fallback uses
the identity subtractor, hence no obstacles). -/
def winning_choice (O : ImageOracle) (p : LayoutParams) : ObsChoice :=
  if (main_best O p).1.panels = [] then ObsChoice.noObs
  else subtractor_choice (O.geom (main_best O p).2 (edgeClearEff p * O.pxPerM))
    (obs_present O p) (p.obstacle_clearance_m * O.pxPerM)

/-- Obstacle point set denoted by a choice, given the point sets of the
plain and buffered obstacle unions. -/
def obs_in_force (obsFam0 : Set (ℚ × ℚ)) (obsFam : ℚ → Set (ℚ × ℚ)) :
    ObsChoice → Set (ℚ × ℚ)
  | ObsChoice.noObs => ∅
  | ObsChoice.init => obsFam0
  | ObsChoice.relaxedAt t => obsFam t

/-! Soundness bookkeeping tying the oracle regions' containment tests to
their point-set carriers, and characterization of the layout pipeline's
successful results. -/

/-- A region is sound when each part's containment test implies carrier
membership and each part's carrier lies in the region's carrier. -/
def RegionSound (R : Region) : Prop :=
  ∀ pp ∈ R.parts,
    (∀ r : Rect, pp.inside r = true → r.toSet ⊆ pp.carrier) ∧ pp.carrier ⊆ R.carrier

/-- Soundness of every region an angle's geometry can produce. -/
def GeomSound (g : AngleGeom) : Prop :=
  RegionSound g.eroded ∧ RegionSound g.diffInit ∧ ∀ t : ℚ, RegionSound (g.diffAt t)

theorem region_of_choice_sound {g : AngleGeom} (h : GeomSound g) (ch : ObsChoice) :
    RegionSound (region_of_choice g ch) := by
  cases ch with
  | noObs => exact h.1
  | init => exact h.2.1
  | relaxedAt t => exact h.2.2 t

/-- Usable region consumed by `_try_angle_pack`'s packer. -/
def usable_of (g : AngleGeom) (useSub obsPresent : Bool) (obsClearPx : ℚ) : Region :=
  if useSub = true then (subtractor_model g obsPresent obsClearPx).1 else g.eroded

theorem usable_of_choice (g : AngleGeom) (obsPresent : Bool) (obsClearPx : ℚ) :
    usable_of g true obsPresent obsClearPx =
      region_of_choice g (subtractor_choice g obsPresent obsClearPx) := by
  unfold usable_of
  rw [if_pos rfl]
  exact subtractor_model_region g obsPresent obsClearPx

/-- Every panel of a per-angle packing attempt passed the containment
test of some part of the usable region. -/
theorem try_angle_pack_mem (g : AngleGeom) (useSub obsPresent : Bool)
    (obsClearPx spacingPx targetFillFrac : ℚ) (panelDims : ℚ × ℚ)
    (pxPerM roofAreaPx : ℚ) (fillRelativeTo : String) (overshootFrac : ℚ) :
    ∀ r ∈ (try_angle_pack g useSub obsPresent obsClearPx spacingPx targetFillFrac
        panelDims pxPerM roofAreaPx fillRelativeTo overshootFrac).1.panels,
      ∃ pp ∈ (usable_of g useSub obsPresent obsClearPx).parts, pp.inside r = true := by
  intro r hr
  unfold try_angle_pack at hr
  by_cases her : g.eroded.isEmpty = true
  · rw [if_pos her] at hr; simp at hr
  · rw [if_neg her] at hr
    simp only at hr
    by_cases hus : (usable_of g useSub obsPresent obsClearPx).isEmpty = true
    · rw [show (if useSub = true then subtractor_model g obsPresent obsClearPx
          else (g.eroded, [])).1 = usable_of g useSub obsPresent obsClearPx by
          unfold usable_of; split_ifs <;> rfl] at hr
      rw [if_pos hus] at hr
      simp at hr
    · rw [show (if useSub = true then subtractor_model g obsPresent obsClearPx
          else (g.eroded, [])).1 = usable_of g useSub obsPresent obsClearPx by
          unfold usable_of; split_ifs <;> rfl] at hr
      rw [if_neg hus] at hr
      by_cases hcmp : sumArea (pack_all_parts (panelDims.1 * pxPerM) (panelDims.2 * pxPerM)
          spacingPx (panelDims.1 * pxPerM * (panelDims.2 * pxPerM) * overshootFrac)
          (usable_of g useSub obsPresent obsClearPx).parts
          (if fillRelativeTo = "roof" ∧ roofAreaPx > 0 then roofAreaPx * targetFillFrac
            else (usable_of g useSub obsPresent obsClearPx).area * targetFillFrac)) >
          sumArea (pack_all_parts (panelDims.2 * pxPerM) (panelDims.1 * pxPerM)
          spacingPx (panelDims.2 * pxPerM * (panelDims.1 * pxPerM) * overshootFrac)
          (usable_of g useSub obsPresent obsClearPx).parts
          (if fillRelativeTo = "roof" ∧ roofAreaPx > 0 then roofAreaPx * targetFillFrac
            else (usable_of g useSub obsPresent obsClearPx).area * targetFillFrac))
      · rw [if_pos hcmp] at hr
        simp only at hr
        exact pack_all_parts_mem _ _ _ _ _ _ r hr
      · rw [if_neg hcmp] at hr
        simp only at hr
        exact pack_all_parts_mem _ _ _ _ _ _ r hr

theorem select_best_mem :
    ∀ (runs : List (ℚ × PackOutcome)) (acc : PackOutcome × ℚ × Option ℚ),
      ((select_best runs acc).1 = acc.1 ∧ (select_best runs acc).2.1 = acc.2.1) ∨
      ∃ pr ∈ runs, (select_best runs acc).1 = pr.2 ∧ (select_best runs acc).2.1 = pr.1 := by
  intro runs
  induction runs with
  | nil => intro acc; left; exact ⟨rfl, rfl⟩
  | cons hd tl ih =>
    rintro ⟨bo, ba, bd⟩
    obtain ⟨a, oc⟩ := hd
    simp only [select_best]
    by_cases hbet : (match bd with
      | none => true
      | some d => decide (|oc.placedPx - oc.targetPx| < d)) = true
    · rw [if_pos hbet]
      rcases ih (oc, a, some |oc.placedPx - oc.targetPx|) with ⟨h1, h2⟩ | ⟨pr, hpr, h1, h2⟩
      · right; exact ⟨(a, oc), by simp, by rw [h1], by rw [h2]⟩
      · right; exact ⟨pr, List.mem_cons_of_mem _ hpr, h1, h2⟩
    · rw [if_neg hbet]
      rcases ih (bo, ba, bd) with ⟨h1, h2⟩ | ⟨pr, hpr, h1, h2⟩
      · left; exact ⟨h1, h2⟩
      · right; exact ⟨pr, List.mem_cons_of_mem _ hpr, h1, h2⟩

/-- When the angle loop produced a nonempty placement, the winner is one
of the angle runs, at the angle recorded with it. -/
theorem main_best_mem (O : ImageOracle) (p : LayoutParams)
    (h : (main_best O p).1.panels ≠ []) :
    ∃ a ∈ angles_to_try O p, (main_best O p).1 = (angle_run O p a).1 ∧
      (main_best O p).2 = a := by
  unfold main_best at *
  rcases select_best_mem ((angles_to_try O p).map fun a => (a, (angle_run O p a).1))
      (⟨[], ((specOf p).1, (specOf p).2.1), 0, 0, 0⟩, (angles_to_try O p).headD 0, none)
    with ⟨h1, _⟩ | ⟨pr, hpr, h1, h2⟩
  · exfalso
    apply h
    rw [h1]
  · obtain ⟨a, ha, rfl⟩ := List.mem_map.mp hpr
    exact ⟨a, ha, h1, h2⟩

/-- Successful results of `layout_panels` are exactly `layout_out`, and
success implies all validation gates passed. -/
theorem layout_panels_ok (O : ImageOracle) (ar : ℚ) (lm wm : Option ℚ) (p : LayoutParams)
    (out : LayoutOut) (hok : layout_panels O ar lm wm p = Except.ok out) :
    out = layout_out O p ∧ (30 ≤ p.fill_pct ∧ p.fill_pct ≤ 90) ∧
      (PANEL_SPECS.lookup p.panel_size).isNone = false ∧
      O.contourFound = true ∧ O.maskAreaPx ≠ 0 := by
  unfold layout_panels at hok
  by_cases hfill : 30 ≤ p.fill_pct ∧ p.fill_pct ≤ 90
  · rw [if_neg (not_not_intro hfill)] at hok
    by_cases hlook : (PANEL_SPECS.lookup p.panel_size).isNone
    · rw [if_pos hlook] at hok; exact absurd hok (by simp)
    · rw [if_neg hlook] at hok
      by_cases hcont : O.contourFound = false
      · rw [if_pos hcont] at hok; exact absurd hok (by simp)
      · rw [if_neg hcont] at hok
        by_cases hmask : O.maskAreaPx = 0
        · rw [show m_per_px_from_area ar O.maskAreaPx =
              Except.error "Roof mask area is zero" by
              unfold m_per_px_from_area; rw [if_pos hmask]] at hok
          exact absurd hok (by simp)
        · rw [show m_per_px_from_area ar O.maskAreaPx =
              Except.ok (ar / (O.maskAreaPx : ℚ)) by
              unfold m_per_px_from_area; rw [if_neg hmask]] at hok
          simp only [Except.ok.injEq] at hok
          exact ⟨hok.symm, hfill, by simpa using hlook, by simpa using hcont, hmask⟩
  · rw [if_pos hfill] at hok
    exact absurd hok (by simp)

/-! Helper characterizations for the validation-related claims. -/

theorem layout_invalidFill_iff (O : ImageOracle) (ar : ℚ) (lm wm : Option ℚ)
    (p : LayoutParams) :
    layout_panels O ar lm wm p = Except.error LayoutError.invalidFillPercentage ↔
      ¬ (30 ≤ p.fill_pct ∧ p.fill_pct ≤ 90) := by
  unfold layout_panels
  by_cases hfill : 30 ≤ p.fill_pct ∧ p.fill_pct ≤ 90
  · rw [if_neg (not_not_intro hfill)]
    constructor
    · intro h
      exfalso
      by_cases hlook : (PANEL_SPECS.lookup p.panel_size).isNone
      · rw [if_pos hlook] at h; simp at h
      · rw [if_neg hlook] at h
        by_cases hcont : O.contourFound = false
        · rw [if_pos hcont] at h; simp at h
        · rw [if_neg hcont] at h
          by_cases hmask : O.maskAreaPx = 0
          · rw [show m_per_px_from_area ar O.maskAreaPx =
                Except.error "Roof mask area is zero" by
                unfold m_per_px_from_area; rw [if_pos hmask]] at h
            simp at h
          · rw [show m_per_px_from_area ar O.maskAreaPx =
                Except.ok (ar / (O.maskAreaPx : ℚ)) by
                unfold m_per_px_from_area; rw [if_neg hmask]] at h
            simp at h
    · intro h; exact absurd hfill h
  · rw [if_pos hfill]
    simp [hfill]

theorem layout_unknownPanel_iff (O : ImageOracle) (ar : ℚ) (lm wm : Option ℚ)
    (p : LayoutParams) (hfill : 30 ≤ p.fill_pct ∧ p.fill_pct ≤ 90) :
    layout_panels O ar lm wm p = Except.error LayoutError.unknownPanelSize ↔
      (PANEL_SPECS.lookup p.panel_size).isNone = true := by
  unfold layout_panels
  rw [if_neg (not_not_intro hfill)]
  by_cases hlook : (PANEL_SPECS.lookup p.panel_size).isNone
  · rw [if_pos hlook]
    simp [hlook]
  · rw [if_neg hlook]
    constructor
    · intro h
      exfalso
      by_cases hcont : O.contourFound = false
      · rw [if_pos hcont] at h; simp at h
      · rw [if_neg hcont] at h
        by_cases hmask : O.maskAreaPx = 0
        · rw [show m_per_px_from_area ar O.maskAreaPx =
              Except.error "Roof mask area is zero" by
              unfold m_per_px_from_area; rw [if_pos hmask]] at h
          simp at h
        · rw [show m_per_px_from_area ar O.maskAreaPx =
              Except.ok (ar / (O.maskAreaPx : ℚ)) by
              unfold m_per_px_from_area; rw [if_neg hmask]] at h
          simp at h
    · intro h; exact absurd h (by simpa using hlook)

theorem layout_invalid_indep (O O' : ImageOracle) (ar ar' : ℚ) (lm lm' wm wm' : Option ℚ)
    (p : LayoutParams)
    (h : ¬ (30 ≤ p.fill_pct ∧ p.fill_pct ≤ 90) ∨
      (PANEL_SPECS.lookup p.panel_size).isNone = true) :
    layout_panels O ar lm wm p = layout_panels O' ar' lm' wm' p := by
  unfold layout_panels
  by_cases hfill : 30 ≤ p.fill_pct ∧ p.fill_pct ≤ 90
  · rw [if_neg (not_not_intro hfill), if_neg (not_not_intro hfill)]
    rcases h with h | h
    · exact absurd hfill h
    · rw [if_pos (by simpa using h), if_pos (by simpa using h)]
  · rw [if_pos hfill, if_pos hfill]

/-- Acceptance condition of a ladder rung: nonempty and at least 12% of
the pre-subtraction area. -/
def ladder_good (g : AngleGeom) (u : Region) : Prop :=
  u.isEmpty = false ∧ u.area ≥ 12 / 100 * g.eroded.area

instance ladder_good_decidable (g : AngleGeom) (u : Region) : Decidable (ladder_good g u) :=
  inferInstanceAs (Decidable (u.isEmpty = false ∧ u.area ≥ 12 / 100 * g.eroded.area))

theorem ladderGo_unfold (g : AngleGeom) (c : ℚ) (u0 : Region) :
    ladderGo g c obstacleLadderFracs u0 =
      if ladder_good g (g.diffAt (c * (1 - 3 / 4))) then (g.diffAt (c * (1 - 3 / 4)), true)
      else if ladder_good g (g.diffAt (c * (1 - 1 / 2))) then
        (g.diffAt (c * (1 - 1 / 2)), true)
      else if ladder_good g (g.diffAt (c * (1 - 1 / 4))) then
        (g.diffAt (c * (1 - 1 / 4)), true)
      else if ladder_good g (g.diffAt (c * (1 - 0))) then (g.diffAt (c * (1 - 0)), true)
      else (g.diffAt (c * (1 - 0)), false) := by
  simp only [obstacleLadderFracs, ladderGo, ladder_good]

theorem subtractor_model_unfold (g : AngleGeom) (c : ℚ)
    (hbad : g.diffInit.isEmpty = true ∨ g.diffInit.area < 12 / 100 * g.eroded.area) :
    subtractor_model g true c =
      (if (ladderGo g c obstacleLadderFracs g.diffInit).2 = true then
        ((ladderGo g c obstacleLadderFracs g.diffInit).1, [relaxMsg])
      else if (ladderGo g c obstacleLadderFracs g.diffInit).1.isEmpty = true then
        (g.eroded, [disabledMsg])
      else ((ladderGo g c obstacleLadderFracs g.diffInit).1, [])) := by
  unfold subtractor_model
  rw [if_neg (by simp : ¬ (true = false)), if_pos hbad]

/-- C5 (amended): when the initial obstacle subtraction leaves an empty
or below-12% region, the subtraction is retried with the obstacle buffer
shrunk by 25%, 50%, 75%, 100% of the obstacle clearance in that order
(fractions `1 - f` for `f` in `0.75, 0.5, 0.25, 0`), and the first
relaxation restoring at least 12% usable area is adopted with a warning.
When no rung restores 12%: if the final (100% shrink) attempt is empty,
obstacles are disabled with a warning and the pre-subtraction polygon is
used; if it is nonempty (but still below 12%), that final attempt's
region is used with no warning recorded — the code checks only
emptiness after the ladder, not the 12% threshold. -/
theorem C5_relaxation_ladder (g : AngleGeom) (c : ℚ)
    (hbad : g.diffInit.isEmpty = true ∨ g.diffInit.area < 12 / 100 * g.eroded.area) :
    (ladder_good g (g.diffAt (c * (1 - 3 / 4))) →
      subtractor_model g true c = (g.diffAt (c * (1 - 3 / 4)), [relaxMsg])) ∧
    (¬ ladder_good g (g.diffAt (c * (1 - 3 / 4))) →
      ladder_good g (g.diffAt (c * (1 - 1 / 2))) →
      subtractor_model g true c = (g.diffAt (c * (1 - 1 / 2)), [relaxMsg])) ∧
    (¬ ladder_good g (g.diffAt (c * (1 - 3 / 4))) →
      ¬ ladder_good g (g.diffAt (c * (1 - 1 / 2))) →
      ladder_good g (g.diffAt (c * (1 - 1 / 4))) →
      subtractor_model g true c = (g.diffAt (c * (1 - 1 / 4)), [relaxMsg])) ∧
    (¬ ladder_good g (g.diffAt (c * (1 - 3 / 4))) →
      ¬ ladder_good g (g.diffAt (c * (1 - 1 / 2))) →
      ¬ ladder_good g (g.diffAt (c * (1 - 1 / 4))) →
      ladder_good g (g.diffAt (c * (1 - 0))) →
      subtractor_model g true c = (g.diffAt (c * (1 - 0)), [relaxMsg])) ∧
    (¬ ladder_good g (g.diffAt (c * (1 - 3 / 4))) →
      ¬ ladder_good g (g.diffAt (c * (1 - 1 / 2))) →
      ¬ ladder_good g (g.diffAt (c * (1 - 1 / 4))) →
      ¬ ladder_good g (g.diffAt (c * (1 - 0))) →
      (g.diffAt (c * (1 - 0))).isEmpty = true →
      subtractor_model g true c = (g.eroded, [disabledMsg])) ∧
    (¬ ladder_good g (g.diffAt (c * (1 - 3 / 4))) →
      ¬ ladder_good g (g.diffAt (c * (1 - 1 / 2))) →
      ¬ ladder_good g (g.diffAt (c * (1 - 1 / 4))) →
      ¬ ladder_good g (g.diffAt (c * (1 - 0))) →
      (g.diffAt (c * (1 - 0))).isEmpty = false →
      subtractor_model g true c = (g.diffAt (c * (1 - 0)), [])) := by
  rw [subtractor_model_unfold g c hbad, ladderGo_unfold]
  refine ⟨?_, ?_, ?_, ?_, ?_, ?_⟩
  · intro h1
    rw [if_pos h1]
    simp
  · intro h1 h2
    rw [if_neg h1, if_pos h2]
    simp
  · intro h1 h2 h3
    rw [if_neg h1, if_neg h2, if_pos h3]
    simp
  · intro h1 h2 h3 h4
    rw [if_neg h1, if_neg h2, if_neg h3, if_pos h4]
    simp
  · intro h1 h2 h3 h4 hemp
    rw [if_neg h1, if_neg h2, if_neg h3, if_neg h4]
    have hemp' : (g.diffAt c).isEmpty = true := by simpa using hemp
    simp [hemp']
  · intro h1 h2 h3 h4 hemp
    rw [if_neg h1, if_neg h2, if_neg h3, if_neg h4]
    have hemp' : (g.diffAt c).isEmpty = false := by simpa using hemp
    simp [hemp']

/-- Region literal with no parts and an empty carrier, sufficient for
exercising the subtractor, whose decisions read only emptiness and area. -/
def mkRegion (e : Bool) (a : ℚ) : Region := ⟨e, a, [], ∅⟩

/-- Concrete angle geometry on which every ladder rung is nonempty but
keeps only 5% of the pre-subtraction area. -/
def gLadder : AngleGeom := ⟨mkRegion false 100, mkRegion false 1, fun _ => mkRegion false 5⟩

/-- C5 counterexample: on `gLadder` the initial subtraction keeps 1% and
every relaxation rung keeps 5% (below 12%), so by the claim obstacles
should be disabled, a warning recorded and the pre-subtraction polygon
(area 100) used; the code instead adopts the final rung's area-5 region
and records no warning. -/
theorem C5_counterexample :
    ladder_choice gLadder 1 obstacleLadderFracs = none ∧
    (subtractor_model gLadder true 1).2 = [] ∧
    (subtractor_model gLadder true 1).1.area = 5 ∧
    gLadder.eroded.area = 100 ∧
    (subtractor_model gLadder true 1).1.area ≠ gLadder.eroded.area := by
  have hng : ∀ t : ℚ, ¬ ladder_good gLadder (gLadder.diffAt t) := by
    intro t
    norm_num [ladder_good, gLadder, mkRegion]
  have heval : subtractor_model gLadder true 1 = (mkRegion false 5, []) := by
    rw [subtractor_model_unfold gLadder 1 (Or.inr (by norm_num [gLadder, mkRegion])),
      ladderGo_unfold]
    rw [if_neg (hng (1 * (1 - 3 / 4))), if_neg (hng (1 * (1 - 1 / 2))),
      if_neg (hng (1 * (1 - 1 / 4))), if_neg (hng (1 * (1 - 0)))]
    simp [gLadder, mkRegion]
  refine ⟨?_, by rw [heval], by simp [heval, mkRegion], by norm_num [gLadder, mkRegion], ?_⟩
  · norm_num [ladder_choice, obstacleLadderFracs, gLadder, mkRegion]
  · rw [heval]
    norm_num [gLadder, mkRegion]

/-- C5 witness: on `gLadder` with clearance 1 the pre-subtraction check
fails (area 1 of 100) and every rung is nonempty but below 12%, so the
amended final clause applies. -/
theorem C5_witness :
    subtractor_model gLadder true 1 = (gLadder.diffAt (1 * (1 - 0)), []) := by
  refine (C5_relaxation_ladder gLadder 1
      (Or.inr (by norm_num [gLadder, mkRegion]))).2.2.2.2.2
    (by norm_num [ladder_good, gLadder, mkRegion])
    (by norm_num [ladder_good, gLadder, mkRegion])
    (by norm_num [ladder_good, gLadder, mkRegion])
    (by norm_num [ladder_good, gLadder, mkRegion])
    (by norm_num [gLadder, mkRegion])

/-! Concrete instances used by witnesses and counterexamples: an oracle
whose roof is an axis-aligned 10 by 2 rectangle (in pixels, with a unit
pixel scale), eroded by the clearance on each side; obstacle mode is
`off`. -/

/-- Numerical erosion margin of the packer's containment test
(`buffer(-1e-6)`). -/
def margin : ℚ := 1 / 1000000

/-- Rectangle region polygon: bounds, margin-eroded containment test,
and the rectangle's point set as carrier. -/
def rectPoly (a b c d : ℚ) : PackPoly :=
  ⟨a, b, c, d,
   fun r => decide (a + margin ≤ r.x0 ∧ r.x1 ≤ c - margin ∧
     b + margin ≤ r.y0 ∧ r.y1 ≤ d - margin),
   (Rect.mk a b c d).toSet⟩

/-- Rectangle region: one part, area and emptiness from the bounds. -/
def rectRegion (a b c d : ℚ) : Region :=
  ⟨decide (c ≤ a ∨ d ≤ b), (c - a) * (d - b), [rectPoly a b c d], (Rect.mk a b c d).toSet⟩

/-- Geometry of a rectangular roof of size `S` by `T` eroded by `c` on
each side; no obstacles, so all differences coincide with the eroded
rectangle. -/
def rectGeom (S T c : ℚ) : AngleGeom :=
  ⟨rectRegion c c (S - c) (T - c), rectRegion c c (S - c) (T - c),
   fun _ => rectRegion c c (S - c) (T - c)⟩

/-- Concrete oracle: roof contour found, 20 mask pixels, unit pixel
scale, axis angle 0, no obstacles detected, 10 by 2 rectangular roof. -/
def cO : ImageOracle := ⟨true, 20, 1, 0, fun _ => false, fun _ c => rectGeom 10 2 c⟩

/-- Concrete parameters: medium panels, 30% fill, default spacing and
clearances, obstacle mode `off`. -/
def cP : LayoutParams := ⟨"medium", 30, 12 / 100, 1 / 4, 1 / 2, 1 / 4, "off", none, "usable", 1 / 5⟩

/-- Parameters with an out-of-range fill percentage (29). -/
def cP29 : LayoutParams := ⟨"medium", 29, 12 / 100, 1 / 4, 1 / 2, 1 / 4, "off", none, "usable", 1 / 5⟩

/-- Parameters with an out-of-range fill percentage (91). -/
def cP91 : LayoutParams := ⟨"medium", 91, 12 / 100, 1 / 4, 1 / 2, 1 / 4, "off", none, "usable", 1 / 5⟩

/-- Parameters with the boundary fill percentage 90. -/
def cP90 : LayoutParams := ⟨"medium", 90, 12 / 100, 1 / 4, 1 / 2, 1 / 4, "off", none, "usable", 1 / 5⟩

/-- Parameters with a panel size outside the catalog. -/
def cPHuge : LayoutParams := ⟨"huge", 50, 12 / 100, 1 / 4, 1 / 2, 1 / 4, "off", none, "usable", 1 / 5⟩

/-- C6: parameter validation happens before any image processing and is
the only source of the two validation errors: the fill percentage bounds
30 and 90 are accepted (no `InvalidFillPercentage`), anything outside
[30, 90] is rejected with it, a panel size outside the catalog is
rejected with `UnknownPanelSize`, and whenever validation rejects, the
result does not depend on the image oracle, the roof area or the
optional dimensions — no pixel is examined. -/
theorem C6_parameter_validation (O O' : ImageOracle) (ar ar' : ℚ)
    (lm lm' wm wm' : Option ℚ) (p : LayoutParams) :
    (layout_panels O ar lm wm p = Except.error LayoutError.invalidFillPercentage ↔
      ¬ (30 ≤ p.fill_pct ∧ p.fill_pct ≤ 90)) ∧
    ((30 ≤ p.fill_pct ∧ p.fill_pct ≤ 90) →
      (layout_panels O ar lm wm p = Except.error LayoutError.unknownPanelSize ↔
        (PANEL_SPECS.lookup p.panel_size).isNone = true)) ∧
    ((¬ (30 ≤ p.fill_pct ∧ p.fill_pct ≤ 90) ∨
        (PANEL_SPECS.lookup p.panel_size).isNone = true) →
      layout_panels O ar lm wm p = layout_panels O' ar' lm' wm' p) :=
  ⟨layout_invalidFill_iff O ar lm wm p,
   fun h => layout_unknownPanel_iff O ar lm wm p h,
   fun h => layout_invalid_indep O O' ar ar' lm lm' wm wm' p h⟩

/-- C6 witness: fill 29 and 91 are rejected with
`InvalidFillPercentage`, fill 30 and 90 are not, `"huge"` is rejected
with `UnknownPanelSize`, and an invalid fill produces the same result
under two different oracles. -/
theorem C6_witness :
    layout_panels cO 120 none none cP29 = Except.error LayoutError.invalidFillPercentage ∧
    layout_panels cO 120 none none cP91 = Except.error LayoutError.invalidFillPercentage ∧
    layout_panels cO 120 none none cP ≠ Except.error LayoutError.invalidFillPercentage ∧
    layout_panels cO 120 none none cP90 ≠ Except.error LayoutError.invalidFillPercentage ∧
    layout_panels cO 120 none none cPHuge = Except.error LayoutError.unknownPanelSize ∧
    layout_panels cO 120 none none cP29 =
      layout_panels ⟨false, 0, 1, 0, fun _ => false, fun _ c => rectGeom 10 2 c⟩ 0 none none cP29 := by
  refine ⟨?_, ?_, ?_, ?_, ?_, ?_⟩
  · exact (C6_parameter_validation cO cO 120 120 none none none none cP29).1.mpr
      (by norm_num [cP29])
  · exact (C6_parameter_validation cO cO 120 120 none none none none cP91).1.mpr
      (by norm_num [cP91])
  · intro h
    exact absurd ((C6_parameter_validation cO cO 120 120 none none none none cP).1.mp h)
      (by norm_num [cP])
  · intro h
    exact absurd ((C6_parameter_validation cO cO 120 120 none none none none cP90).1.mp h)
      (by norm_num [cP90])
  · exact ((C6_parameter_validation cO cO 120 120 none none none none cPHuge).2.1
      (by norm_num [cPHuge])).mpr (by rfl)
  · exact (C6_parameter_validation cO ⟨false, 0, 1, 0, fun _ => false, fun _ c => rectGeom 10 2 c⟩
      120 0 none none none none cP29).2.2 (Or.inl (by norm_num [cP29]))

/-- C7: the scale calibrator fails with the zero-area-mask error exactly
when the mask pixel count is zero; for a positive count it returns the
radicand `roof_area / pixel_count`, whose square root (the
meters-per-pixel the source computes with `math.sqrt`) squares back to
it. -/
theorem C7_scale_calibrator (a : ℚ) (n : ℕ) (ha : 0 ≤ a) :
    (m_per_px_from_area a n = Except.error "Roof mask area is zero" ↔ n = 0) ∧
    (n ≠ 0 → m_per_px_from_area a n = Except.ok (a / (n : ℚ)) ∧
      Real.sqrt ((a : ℝ) / (n : ℝ)) ^ 2 = (a : ℝ) / (n : ℝ)) := by
  constructor
  · unfold m_per_px_from_area
    by_cases h : n = 0
    · simp [h]
    · simp [h]
  · intro hn
    refine ⟨by unfold m_per_px_from_area; rw [if_neg hn], Real.sq_sqrt ?_⟩
    have ha' : (0 : ℝ) ≤ (a : ℝ) := by exact_mod_cast ha
    positivity

/-- C7 witness at roof area 9 m² and 4 mask pixels. -/
theorem C7_witness :
    m_per_px_from_area 9 4 = Except.ok ((9 : ℚ) / ((4 : ℕ) : ℚ)) ∧
    Real.sqrt (((9 : ℚ) : ℝ) / ((4 : ℕ) : ℝ)) ^ 2 = ((9 : ℚ) : ℝ) / ((4 : ℕ) : ℝ) :=
  (C7_scale_calibrator 9 4 (by norm_num)).2 (by norm_num)

/-- C9: the layout computation is a pure function of the image-analysis
oracle, the roof area, the optional dimensions and the parameters — two
runs on identical inputs return identical results (panels, counts,
statistics and warnings); the embedding has no other inputs, matching
the absence of randomness or hidden state in the source. -/
theorem C9_deterministic (O O' : ImageOracle) (ar ar' : ℚ) (lm lm' wm wm' : Option ℚ)
    (p p' : LayoutParams) (hO : O = O') (har : ar = ar') (hlm : lm = lm')
    (hwm : wm = wm') (hp : p = p') :
    layout_panels O ar lm wm p = layout_panels O' ar' lm' wm' p' := by
  subst hO har hlm hwm hp
  rfl

/-- C9 witness: two identical runs on the concrete oracle coincide. -/
theorem C9_witness : layout_panels cO 120 none none cP = layout_panels cO 120 none none cP :=
  C9_deterministic cO cO 120 120 none none none none cP cP rfl rfl rfl rfl rfl

/-- C10: the warnings list of an accepted result counts, for every
string, exactly the occurrences contributed by evaluating every
candidate angle (winning or not, one contribution per angle whose
subtractor emitted it, in angle order), plus the fallback message when
the fallback ran — so a relaxation warning of a non-winning angle
remains in the result and repeated warnings are kept with multiplicity. -/
theorem C10_warning_accumulation (O : ImageOracle) (ar : ℚ) (lm wm : Option ℚ)
    (p : LayoutParams) (out : LayoutOut) (s : String)
    (hok : layout_panels O ar lm wm p = Except.ok out) :
    out.warnings.count s =
      (((angles_to_try O p).map fun a => ((angle_run O p a).2.count s)).sum) +
      (if (main_best O p).1.panels = [] then [fallbackMsg].count s else 0) := by
  obtain ⟨rfl, -, -, -, -⟩ := layout_panels_ok O ar lm wm p out hok
  unfold layout_out
  by_cases hmb : (main_best O p).1.panels = []
  · rw [if_pos hmb, if_pos hmb]
    show (main_warnings O p ++ [fallbackMsg]).count s = _
    rw [List.count_append]
    unfold main_warnings
    rw [List.count_flatten, List.map_map]
    rfl
  · rw [if_neg hmb, if_neg hmb]
    show (main_warnings O p).count s = _
    unfold main_warnings
    rw [List.count_flatten, List.map_map]
    rfl

theorem layout_cO_ok : layout_panels cO 120 none none cP = Except.ok (layout_out cO cP) := by
  unfold layout_panels
  rw [if_neg (not_not_intro (by norm_num [cP]))]
  rw [if_neg (by decide : ¬ ((PANEL_SPECS.lookup cP.panel_size).isNone = true))]
  rw [if_neg (by simp [cO] : ¬ (cO.contourFound = false))]
  rw [show m_per_px_from_area 120 cO.maskAreaPx = Except.ok (120 / (cO.maskAreaPx : ℚ)) by
    unfold m_per_px_from_area
    rw [if_neg (by norm_num [cO])]]

/-- C10 witness on the concrete oracle, counting the fallback message. -/
theorem C10_witness :
    (layout_out cO cP).warnings.count fallbackMsg =
      (((angles_to_try cO cP).map fun a => ((angle_run cO cP a).2.count fallbackMsg)).sum) +
      (if (main_best cO cP).1.panels = [] then [fallbackMsg].count fallbackMsg else 0) :=
  C10_warning_accumulation cO 120 none none cP (layout_out cO cP) fallbackMsg layout_cO_ok

/-- C3: grid packing with a positive target stops as soon as the
covered area reaches the target — before the last acceptance the target
was not yet reached and the total stays within `target + tol` — a
candidate whose addition keeps the excess within the overshoot tolerance
is still accepted (it becomes the head of the remaining row scan), and a
candidate whose addition would exceed the target by more than the
tolerance is skipped, the scan resuming at the next grid cell of the
same row (the recursion continues in the same row with the abscissa
advanced by one step and the covered area unchanged), not at the next
row. -/
theorem C3_greedy_target (poly : PackPoly) (pW pL spacing target : ℚ)
    (offsets : List (ℚ × ℚ)) (tol : ℚ) (ins : Rect → Bool)
    (hT : 0 < target) (htol : 0 ≤ tol) :
    (sumArea (pack_grid poly pW pL spacing target offsets tol) ≤ target + tol) ∧
    (∀ k : ℕ, (pack_grid poly pW pL spacing target offsets tol).length = k + 1 →
      pW * pL * k < target) ∧
    (∀ (n : ℕ) (x y covered stepX : ℚ), ins ⟨x, y, x + pW, y + pL⟩ = true →
      covered + pW * pL ≤ target + tol →
      ((packCols ins pW pL stepX target tol (pW * pL) (n + 1) x y covered).1).head? =
        some ⟨x, y, x + pW, y + pL⟩) ∧
    (∀ (n : ℕ) (x y covered stepX : ℚ),
      covered + pW * pL > target → covered + pW * pL - target > tol →
      packCols ins pW pL stepX target tol (pW * pL) (n + 1) x y covered =
        packCols ins pW pL stepX target tol (pW * pL) n (x + stepX) y covered) := by
  refine ⟨pack_grid_sumArea_le poly pW pL spacing target offsets tol hT htol,
    pack_grid_stop_bound poly pW pL spacing target offsets tol hT htol, ?_, ?_⟩
  · intro n x y covered stepX hins hle
    have hskip : ¬ (target > 0 ∧ covered + pW * pL > target ∧
        covered + pW * pL - target > tol) := by
      rintro ⟨-, -, hgt⟩
      linarith
    rw [packCols]
    rw [if_neg hskip]
    simp only [hins, if_true]
    by_cases hbrk : target > 0 ∧ covered + pW * pL ≥ target
    · rw [if_pos hbrk]; rfl
    · rw [if_neg hbrk]; rfl
  · intro n x y covered stepX hgt hexc
    rw [packCols]
    rw [if_pos ⟨hT, hgt, hexc⟩]

/-- C3 witness: a 10 by 10 region, unit panels with no spacing, target
area 2 with tolerance 0.2: the placed area is bounded by 2.2, and the
step facts hold at the initial cell. -/
theorem C3_witness :
    (sumArea (pack_grid (rectPoly 0 0 10 10) 1 1 0 2 [(0, 0)] (1 / 5)) ≤ 2 + 1 / 5) ∧
    packCols (rectPoly 0 0 10 10).inside 1 1 1 2 (1 / 5) (1 * 1) (3 + 1) 0 0 (2 + 1 / 2) =
      packCols (rectPoly 0 0 10 10).inside 1 1 1 2 (1 / 5) (1 * 1) 3 (0 + 1) 0 (2 + 1 / 2) := by
  constructor
  · exact (C3_greedy_target (rectPoly 0 0 10 10) 1 1 0 2 [(0, 0)] (1 / 5)
      (rectPoly 0 0 10 10).inside (by norm_num) (by norm_num)).1
  · exact (C3_greedy_target (rectPoly 0 0 10 10) 1 1 0 2 [(0, 0)] (1 / 5)
      (rectPoly 0 0 10 10).inside (by norm_num) (by norm_num)).2.2.2 3 0 0 (2 + 1 / 2) 1
      (by norm_num) (by norm_num)

/-- C8: for a fixed polygon, panel dimensions, spacing, offsets and
overshoot tolerance, raising the (positive) target area passed to the
grid packer never lowers the number of placed panels — the greedy scan
with a larger budget accepts at least as many cells at every point, up
to saturation of the region. -/
theorem C8_target_monotone (poly : PackPoly) (pW pL spacing tol : ℚ)
    (offsets : List (ℚ × ℚ)) (T1 T2 : ℚ) (h1 : 0 < T1) (h12 : T1 ≤ T2)
    (hpW : 0 < pW) (hpL : 0 < pL) :
    (pack_grid poly pW pL spacing T1 offsets tol).length ≤
    (pack_grid poly pW pL spacing T2 offsets tol).length :=
  pack_grid_len_mono poly pW pL spacing tol T1 T2 offsets h1 h12 (mul_pos hpW hpL)

/-- C8 witness at targets 2 and 3 on the 10 by 10 region. -/
theorem C8_witness :
    (pack_grid (rectPoly 0 0 10 10) 1 1 0 2 [(0, 0)] (1 / 5)).length ≤
    (pack_grid (rectPoly 0 0 10 10) 1 1 0 3 [(0, 0)] (1 / 5)).length :=
  C8_target_monotone (rectPoly 0 0 10 10) 1 1 0 (1 / 5) [(0, 0)] 2 3
    (by norm_num) (by norm_num) (by norm_num) (by norm_num)

/-! Hypothesis bundles for the layout-level geometric claims. -/

/-- A region's parts have sound containment tests and pairwise disjoint
carriers. -/
def RegionPacksOK (R : Region) : Prop :=
  (∀ pp ∈ R.parts, ∀ r : Rect, pp.inside r = true → r.toSet ⊆ pp.carrier) ∧
  R.parts.Pairwise (fun a b => Disjoint a.carrier b.carrier)

/-- `RegionPacksOK` for every region an angle geometry can produce. -/
def GeomPacksOK (g : AngleGeom) : Prop :=
  RegionPacksOK g.eroded ∧ RegionPacksOK g.diffInit ∧ ∀ t : ℚ, RegionPacksOK (g.diffAt t)

theorem region_of_choice_packsOK {g : AngleGeom} (h : GeomPacksOK g) (ch : ObsChoice) :
    RegionPacksOK (region_of_choice g ch) := by
  cases ch with
  | noObs => exact h.1
  | init => exact h.2.1
  | relaxedAt t => exact h.2.2 t

theorem usable_of_packsOK {g : AngleGeom} (h : GeomPacksOK g) (useSub obsPresent : Bool)
    (c : ℚ) : RegionPacksOK (usable_of g useSub obsPresent c) := by
  cases useSub with
  | false => exact h.1
  | true =>
    rw [usable_of_choice]
    exact region_of_choice_packsOK h _

theorem usable_of_sound {g : AngleGeom} (h : GeomSound g) (useSub obsPresent : Bool)
    (c : ℚ) : RegionSound (usable_of g useSub obsPresent c) := by
  cases useSub with
  | false => exact h.1
  | true =>
    rw [usable_of_choice]
    exact region_of_choice_sound h _

/-- Nonempty regions have positive area. -/
def RegionPos (R : Region) : Prop := R.isEmpty = false → 0 < R.area

/-- `RegionPos` for every region an angle geometry can produce. -/
def GeomPos (g : AngleGeom) : Prop :=
  RegionPos g.eroded ∧ RegionPos g.diffInit ∧ ∀ t : ℚ, RegionPos (g.diffAt t)

theorem usable_of_pos {g : AngleGeom} (h : GeomPos g) (useSub obsPresent : Bool)
    (c : ℚ) : RegionPos (usable_of g useSub obsPresent c) := by
  cases useSub with
  | false => exact h.1
  | true =>
    rw [usable_of_choice]
    cases subtractor_choice g obsPresent c with
    | noObs => exact h.1
    | init => exact h.2.1
    | relaxedAt t => exact h.2.2 t

/-- Panels from one per-angle packing attempt are pairwise
non-overlapping. -/
theorem try_angle_pack_pairwise (g : AngleGeom) (useSub obsPresent : Bool)
    (obsClearPx spacingPx targetFillFrac : ℚ) (panelDims : ℚ × ℚ)
    (pxPerM roofAreaPx : ℚ) (fillRelativeTo : String) (overshootFrac : ℚ)
    (hOK : RegionPacksOK (usable_of g useSub obsPresent obsClearPx))
    (hpW : 0 ≤ panelDims.1 * pxPerM) (hpL : 0 ≤ panelDims.2 * pxPerM)
    (hsp : 0 ≤ spacingPx) :
    (try_angle_pack g useSub obsPresent obsClearPx spacingPx targetFillFrac
      panelDims pxPerM roofAreaPx fillRelativeTo overshootFrac).1.panels.Pairwise
      (fun a b => interArea a b = 0) := by
  unfold try_angle_pack
  by_cases her : g.eroded.isEmpty = true
  · rw [if_pos her]; exact List.Pairwise.nil
  · rw [if_neg her]
    simp only
    rw [show (if useSub = true then subtractor_model g obsPresent obsClearPx
        else (g.eroded, [])).1 = usable_of g useSub obsPresent obsClearPx by
        unfold usable_of; split_ifs <;> rfl]
    by_cases hus : (usable_of g useSub obsPresent obsClearPx).isEmpty = true
    · rw [if_pos hus]; exact List.Pairwise.nil
    · rw [if_neg hus]
      have hgen : ∀ (pa pb tol' tgt : ℚ), 0 ≤ pa → 0 ≤ pb →
          (pack_all_parts pa pb spacingPx tol'
            (usable_of g useSub obsPresent obsClearPx).parts tgt).Pairwise
            (fun a b => interArea a b = 0) := fun pa pb tol' tgt ha hb =>
        pack_all_parts_pairwise pa pb spacingPx tol' ha hb hsp _ hOK.1 hOK.2 tgt
      split_ifs <;>
        first
          | exact hgen _ _ _ _ hpW hpL
          | exact hgen _ _ _ _ hpL hpW

/-- Overshoot bound of one per-angle packing attempt. -/
theorem try_angle_pack_bound (g : AngleGeom) (useSub obsPresent : Bool)
    (obsClearPx spacingPx targetFillFrac : ℚ) (panelDims : ℚ × ℚ)
    (pxPerM roofAreaPx : ℚ) (fillRelativeTo : String) (overshootFrac : ℚ)
    (hof : 0 ≤ overshootFrac) (hpW : 0 ≤ panelDims.1 * pxPerM)
    (hpL : 0 ≤ panelDims.2 * pxPerM) (hfill : 0 < targetFillFrac)
    (hpos : RegionPos (usable_of g useSub obsPresent obsClearPx)) :
    (try_angle_pack g useSub obsPresent obsClearPx spacingPx targetFillFrac
      panelDims pxPerM roofAreaPx fillRelativeTo overshootFrac).1.placedPx ≤
    (try_angle_pack g useSub obsPresent obsClearPx spacingPx targetFillFrac
      panelDims pxPerM roofAreaPx fillRelativeTo overshootFrac).1.targetPx +
      panelDims.1 * pxPerM * (panelDims.2 * pxPerM) * overshootFrac := by
  have htol : 0 ≤ panelDims.1 * pxPerM * (panelDims.2 * pxPerM) * overshootFrac :=
    mul_nonneg (mul_nonneg hpW hpL) hof
  unfold try_angle_pack
  by_cases her : g.eroded.isEmpty = true
  · rw [if_pos her]; simpa using htol
  · rw [if_neg her]
    simp only
    rw [show (if useSub = true then subtractor_model g obsPresent obsClearPx
        else (g.eroded, [])).1 = usable_of g useSub obsPresent obsClearPx by
        unfold usable_of; split_ifs <;> rfl]
    by_cases hus : (usable_of g useSub obsPresent obsClearPx).isEmpty = true
    · rw [if_pos hus]; simpa using htol
    · rw [if_neg hus]
      have husf : (usable_of g useSub obsPresent obsClearPx).isEmpty = false := by
        simpa using hus
      set tgt := (if fillRelativeTo = "roof" ∧ roofAreaPx > 0 then
        roofAreaPx * targetFillFrac
        else (usable_of g useSub obsPresent obsClearPx).area * targetFillFrac) with htgt
      have htarget : 0 < tgt := by
        rw [htgt]
        split_ifs with hrel
        · exact mul_pos hrel.2 hfill
        · exact mul_pos (hpos husf) hfill
      have hb1 := pack_all_parts_bound (panelDims.2 * pxPerM) (panelDims.1 * pxPerM)
        spacingPx (panelDims.2 * pxPerM * (panelDims.1 * pxPerM) * overshootFrac)
        (mul_nonneg (mul_nonneg hpL hpW) hof)
        (usable_of g useSub obsPresent obsClearPx).parts tgt htarget
      have hb2 := pack_all_parts_bound (panelDims.1 * pxPerM) (panelDims.2 * pxPerM)
        spacingPx (panelDims.1 * pxPerM * (panelDims.2 * pxPerM) * overshootFrac)
        htol (usable_of g useSub obsPresent obsClearPx).parts tgt htarget
      split_ifs <;> simp only <;> nlinarith [hb1, hb2]

theorem lookup_pred {β : Type} (P : β → Prop) :
    ∀ (l : List (String × β)) (k : String) (v : β),
      (∀ e ∈ l, P e.2) → l.lookup k = some v → P v := by
  intro l
  induction l with
  | nil => intro k v _ h; simp [List.lookup] at h
  | cons e t ih =>
    intro k v hall h
    obtain ⟨k', b⟩ := e
    rw [List.lookup] at h
    by_cases hb : (k == k') = true
    · rw [hb] at h
      simp only [Option.some.injEq] at h
      exact h ▸ hall (k', b) (by simp)
    · rw [Bool.not_eq_true] at hb
      rw [hb] at h
      exact ih k v (fun e he => hall e (List.mem_cons_of_mem _ he)) h

theorem spec_dims_nonneg (p : LayoutParams) : 0 ≤ (specOf p).1 ∧ 0 ≤ (specOf p).2.1 := by
  unfold specOf
  rcases hl : PANEL_SPECS.lookup p.panel_size with _ | v
  · norm_num
  · simp only [Option.getD_some]
    refine lookup_pred (fun v => 0 ≤ v.1 ∧ 0 ≤ v.2.1) PANEL_SPECS p.panel_size v ?_ hl
    intro e he
    simp only [PANEL_SPECS, List.mem_cons, List.not_mem_nil, or_false] at he
    rcases he with h | h | h | h <;> subst h <;> norm_num

theorem fb_spacing_nonneg (O : ImageOracle) (p : LayoutParams) (hpx : 0 ≤ O.pxPerM) :
    0 ≤ fb_spacing_px O p := by
  unfold fb_spacing_px
  have : (0 : ℚ) ≤ 2 / 100 * O.pxPerM := by linarith
  exact le_trans this (le_max_left _ _)

/-- C2: in every accepted result — whether from the main angle loop or
the last-resort fallback — the placed panels are pairwise
non-overlapping (intersection area zero) for any nonnegative spacing:
panels of one part sit on a grid stepped by a panel side plus the
spacing, and panels of different parts lie in disjoint carriers. -/
theorem C2_pairwise_disjoint (O : ImageOracle) (ar : ℚ) (lm wm : Option ℚ)
    (p : LayoutParams) (out : LayoutOut)
    (hok : layout_panels O ar lm wm p = Except.ok out)
    (hpx : 0 ≤ O.pxPerM) (hsp : 0 ≤ p.spacing_m)
    (hOK : GeomPacksOK (winning_geom O p)) :
    out.panels.Pairwise (fun a b => interArea a b = 0) := by
  obtain ⟨rfl, -, -, -, -⟩ := layout_panels_ok O ar lm wm p out hok
  obtain ⟨hd1, hd2⟩ := spec_dims_nonneg p
  unfold layout_out
  by_cases hmb : (main_best O p).1.panels = []
  · rw [if_pos hmb]
    show (fallback_run O p).panels.Pairwise _
    have hOK' : GeomPacksOK (O.geom O.roofAxis (fb_clear_px O p)) := by
      have : winning_geom O p = O.geom O.roofAxis (fb_clear_px O p) := by
        unfold winning_geom; rw [if_pos hmb]
      rw [this] at hOK
      exact hOK
    exact try_angle_pack_pairwise _ _ _ _ _ _ _ _ _ _ _
      (usable_of_packsOK hOK' false false _) (mul_nonneg hd1 hpx) (mul_nonneg hd2 hpx)
      (fb_spacing_nonneg O p hpx)
  · rw [if_neg hmb]
    obtain ⟨a, _, h1, h2⟩ := main_best_mem O p hmb
    show (main_best O p).1.panels.Pairwise _
    rw [h1]
    have hOK' : GeomPacksOK (O.geom a (edgeClearEff p * O.pxPerM)) := by
      have : winning_geom O p = O.geom a (edgeClearEff p * O.pxPerM) := by
        unfold winning_geom; rw [if_neg hmb, h2]
      rw [this] at hOK
      exact hOK
    exact try_angle_pack_pairwise _ _ _ _ _ _ _ _ _ _ _
      (usable_of_packsOK hOK' true (obs_present O p) _) (mul_nonneg hd1 hpx)
      (mul_nonneg hd2 hpx) (mul_nonneg hsp hpx)

/-- C4 (amended): in every accepted result — including those produced by
the last-resort fallback, which passes the same target fraction and
overshoot tolerance to the packer — the total placed panel area exceeds
the target area by at most `overshoot_tolerance_frac` times one panel's
area.  The fallback relaxes spacing, boundary clearance and obstacles,
but does enforce the target-area ceiling. -/
theorem C4_overshoot_ceiling (O : ImageOracle) (ar : ℚ) (lm wm : Option ℚ)
    (p : LayoutParams) (out : LayoutOut)
    (hok : layout_panels O ar lm wm p = Except.ok out)
    (hof : 0 ≤ p.overshoot_tolerance_frac) (hpx : 0 ≤ O.pxPerM)
    (hpos : GeomPos (winning_geom O p)) :
    out.placedPx ≤ out.targetPx +
      (specOf p).1 * O.pxPerM * ((specOf p).2.1 * O.pxPerM) * p.overshoot_tolerance_frac := by
  obtain ⟨rfl, ⟨hf30, -⟩, -, -, -⟩ := layout_panels_ok O ar lm wm p out hok
  obtain ⟨hd1, hd2⟩ := spec_dims_nonneg p
  have hfill : 0 < p.fill_pct / 100 := by linarith
  unfold layout_out
  by_cases hmb : (main_best O p).1.panels = []
  · rw [if_pos hmb]
    have hpos' : GeomPos (O.geom O.roofAxis (fb_clear_px O p)) := by
      have : winning_geom O p = O.geom O.roofAxis (fb_clear_px O p) := by
        unfold winning_geom; rw [if_pos hmb]
      rw [this] at hpos
      exact hpos
    exact try_angle_pack_bound _ _ _ _ _ _ _ _ _ _ _ hof (mul_nonneg hd1 hpx)
      (mul_nonneg hd2 hpx) hfill (usable_of_pos hpos' false false _)
  · rw [if_neg hmb]
    obtain ⟨a, _, h1, h2⟩ := main_best_mem O p hmb
    show (main_best O p).1.placedPx ≤ (main_best O p).1.targetPx + _
    rw [h1]
    have hpos' : GeomPos (O.geom a (edgeClearEff p * O.pxPerM)) := by
      have : winning_geom O p = O.geom a (edgeClearEff p * O.pxPerM) := by
        unfold winning_geom; rw [if_neg hmb, h2]
      rw [this] at hpos
      exact hpos
    exact try_angle_pack_bound _ _ _ _ _ _ _ _ _ _ _ hof (mul_nonneg hd1 hpx)
      (mul_nonneg hd2 hpx) hfill (usable_of_pos hpos' true (obs_present O p) _)

theorem try_angle_pack_subset (g : AngleGeom) (useSub obsPresent : Bool)
    (obsClearPx spacingPx targetFillFrac : ℚ) (panelDims : ℚ × ℚ)
    (pxPerM roofAreaPx : ℚ) (fillRelativeTo : String) (overshootFrac : ℚ)
    (hsound : RegionSound (usable_of g useSub obsPresent obsClearPx)) :
    ∀ r ∈ (try_angle_pack g useSub obsPresent obsClearPx spacingPx targetFillFrac
        panelDims pxPerM roofAreaPx fillRelativeTo overshootFrac).1.panels,
      r.toSet ⊆ (usable_of g useSub obsPresent obsClearPx).carrier := by
  intro r hr
  obtain ⟨pp, hpp, hins⟩ := try_angle_pack_mem g useSub obsPresent obsClearPx spacingPx
    targetFillFrac panelDims pxPerM roofAreaPx fillRelativeTo overshootFrac r hr
  obtain ⟨h1, h2⟩ := hsound pp hpp
  exact (h1 r hins).trans h2

/-- C1 (amended): every panel of an accepted result, kept in the
winning angle's rotated frame, lies inside the roof polygon eroded by
the boundary clearance actually used by the packing call that produced
it — `max(edge_clearance_m, min_boundary_clearance_m)` for main-loop
angles, but the relaxed `max(0.30, 0.8 × that)` for fallback results —
and is disjoint from the obstacle union in force for that call (the
plain or ladder-relaxed union for main-loop angles, none for the
fallback or when obstacles were disabled).  The hypotheses state what
shapely guarantees of the oracle regions: containment tests imply
carrier membership, and each difference region lies inside the eroded
roof and misses the corresponding obstacle set. -/
theorem C1_panels_inside_clearance (O : ImageOracle) (ar : ℚ) (lm wm : Option ℚ)
    (p : LayoutParams) (out : LayoutOut)
    (obsFam0 : Set (ℚ × ℚ)) (obsFam : ℚ → Set (ℚ × ℚ))
    (hok : layout_panels O ar lm wm p = Except.ok out)
    (hsound : GeomSound (winning_geom O p))
    (hinit : (winning_geom O p).diffInit.carrier ⊆ (winning_geom O p).eroded.carrier ∧
      (winning_geom O p).diffInit.carrier ∩ obsFam0 = ∅)
    (hat : ∀ t : ℚ, ((winning_geom O p).diffAt t).carrier ⊆
        (winning_geom O p).eroded.carrier ∧
      ((winning_geom O p).diffAt t).carrier ∩ obsFam t = ∅) :
    ∀ r ∈ out.panels, r.toSet ⊆ (winning_geom O p).eroded.carrier ∧
      r.toSet ∩ obs_in_force obsFam0 obsFam (winning_choice O p) = ∅ := by
  obtain ⟨rfl, -, -, -, -⟩ := layout_panels_ok O ar lm wm p out hok
  unfold layout_out
  by_cases hmb : (main_best O p).1.panels = []
  · rw [if_pos hmb]
    intro r hr
    have hwg : winning_geom O p = O.geom O.roofAxis (fb_clear_px O p) := by
      unfold winning_geom; rw [if_pos hmb]
    have hwc : winning_choice O p = ObsChoice.noObs := by
      unfold winning_choice; rw [if_pos hmb]
    have hsub := try_angle_pack_subset (O.geom O.roofAxis (fb_clear_px O p)) false false
      (p.obstacle_clearance_m * O.pxPerM) (fb_spacing_px O p) (p.fill_pct / 100)
      ((specOf p).1, (specOf p).2.1) O.pxPerM (O.maskAreaPx : ℚ) p.fill_relative_to
      p.overshoot_tolerance_frac (by rw [← hwg] at *; exact (usable_of_sound hsound false false _))
      r hr
    constructor
    · rw [hwg]
      exact hsub
    · rw [hwc]
      simp [obs_in_force]
  · rw [if_neg hmb]
    intro r hr
    obtain ⟨a, _, h1, h2⟩ := main_best_mem O p hmb
    have hwg : winning_geom O p = O.geom a (edgeClearEff p * O.pxPerM) := by
      unfold winning_geom; rw [if_neg hmb, h2]
    have hwc : winning_choice O p =
        subtractor_choice (O.geom a (edgeClearEff p * O.pxPerM)) (obs_present O p)
          (p.obstacle_clearance_m * O.pxPerM) := by
      unfold winning_choice; rw [if_neg hmb, h2]
    have hr' : r ∈ (angle_run O p a).1.panels := by rw [← h1]; exact hr
    have hsub := try_angle_pack_subset (O.geom a (edgeClearEff p * O.pxPerM)) true
      (obs_present O p) (p.obstacle_clearance_m * O.pxPerM) (p.spacing_m * O.pxPerM)
      (p.fill_pct / 100) ((specOf p).1, (specOf p).2.1) O.pxPerM (O.maskAreaPx : ℚ)
      p.fill_relative_to p.overshoot_tolerance_frac
      (by rw [← hwg] at *; exact (usable_of_sound hsound true (obs_present O p) _)) r hr'
    rw [usable_of_choice] at hsub
    rw [hwg] at hinit hat ⊢
    rw [hwc]
    cases hch : subtractor_choice (O.geom a (edgeClearEff p * O.pxPerM)) (obs_present O p)
        (p.obstacle_clearance_m * O.pxPerM) with
    | noObs =>
      rw [hch] at hsub
      exact ⟨hsub, by simp [obs_in_force]⟩
    | init =>
      rw [hch] at hsub
      refine ⟨hsub.trans hinit.1, ?_⟩
      have hss : r.toSet ∩ obs_in_force obsFam0 obsFam ObsChoice.init ⊆
          (O.geom a (edgeClearEff p * O.pxPerM)).diffInit.carrier ∩ obsFam0 :=
        Set.inter_subset_inter_left _ hsub
      rw [hinit.2] at hss
      exact Set.subset_empty_iff.mp hss
    | relaxedAt t =>
      rw [hch] at hsub
      refine ⟨hsub.trans (hat t).1, ?_⟩
      have hss : r.toSet ∩ obs_in_force obsFam0 obsFam (ObsChoice.relaxedAt t) ⊆
          ((O.geom a (edgeClearEff p * O.pxPerM)).diffAt t).carrier ∩ obsFam t :=
        Set.inter_subset_inter_left _ hsub
      rw [(hat t).2] at hss
      exact Set.subset_empty_iff.mp hss

/-! Evaluation lemmas for the concrete rectangular-roof oracle. -/

theorem rectPoly_inside_sound (a b c d : ℚ) :
    ∀ r : Rect, (rectPoly a b c d).inside r = true →
      r.toSet ⊆ (rectPoly a b c d).carrier := by
  intro r h q hq
  simp only [rectPoly, decide_eq_true_eq] at h
  obtain ⟨h1, h2, h3, h4⟩ := h
  obtain ⟨q1, q2, q3, q4⟩ := hq
  have hm : (0 : ℚ) < margin := by norm_num [margin]
  exact ⟨by linarith, by linarith, by linarith, by linarith⟩

theorem rectRegion_sound (a b c d : ℚ) : RegionSound (rectRegion a b c d) := by
  intro pp hpp
  simp only [rectRegion, List.mem_singleton] at hpp
  subst hpp
  exact ⟨rectPoly_inside_sound a b c d, fun q hq => hq⟩

theorem rectRegion_packsOK (a b c d : ℚ) : RegionPacksOK (rectRegion a b c d) := by
  constructor
  · intro pp hpp
    simp only [rectRegion, List.mem_singleton] at hpp
    subst hpp
    exact rectPoly_inside_sound a b c d
  · simp [rectRegion]

theorem rectRegion_pos (a b c d : ℚ) : RegionPos (rectRegion a b c d) := by
  intro h
  simp only [rectRegion, decide_eq_false_iff_not, not_or, not_le] at h
  simp only [rectRegion]
  have h1 : 0 < c - a := by linarith [h.1]
  have h2 : 0 < d - b := by linarith [h.2]
  exact mul_pos h1 h2

theorem rectGeom_sound (S T c : ℚ) : GeomSound (rectGeom S T c) :=
  ⟨rectRegion_sound c c (S - c) (T - c), rectRegion_sound c c (S - c) (T - c),
   fun _ => rectRegion_sound c c (S - c) (T - c)⟩

theorem rectGeom_packsOK (S T c : ℚ) : GeomPacksOK (rectGeom S T c) :=
  ⟨rectRegion_packsOK c c (S - c) (T - c), rectRegion_packsOK c c (S - c) (T - c),
   fun _ => rectRegion_packsOK c c (S - c) (T - c)⟩

theorem rectGeom_pos (S T c : ℚ) : GeomPos (rectGeom S T c) :=
  ⟨rectRegion_pos c c (S - c) (T - c), rectRegion_pos c c (S - c) (T - c),
   fun _ => rectRegion_pos c c (S - c) (T - c)⟩

theorem usable_of_rectGeom (S T c : ℚ) (useSub obsPresent : Bool) (q : ℚ) :
    usable_of (rectGeom S T c) useSub obsPresent q = rectRegion c c (S - c) (T - c) := by
  cases useSub with
  | false => rfl
  | true =>
    rw [usable_of_choice]
    cases subtractor_choice (rectGeom S T c) obsPresent q <;> rfl

theorem pack_grid_rows_zero (poly : PackPoly) (pW pL sp T : ℚ) (offs : List (ℚ × ℚ))
    (tol : ℚ) (h : ¬ availH poly ≥ pL) :
    pack_grid poly pW pL sp T offs tol = [] := by
  unfold pack_grid
  rw [if_pos (Or.inr (by unfold gridRowsOf; rw [if_neg h]))]

theorem pack_all_parts_rows_zero (pW pL sp tol : ℚ) :
    ∀ (parts : List PackPoly) (rem : ℚ),
      (∀ part ∈ parts, ¬ availH part ≥ pL) →
      pack_all_parts pW pL sp tol parts rem = [] := by
  intro parts
  induction parts with
  | nil => intro rem _; rfl
  | cons part rest ih =>
    intro rem hall
    rw [pack_all_parts]
    rw [pack_grid_rows_zero part pW pL sp rem _ tol (hall part (by simp))]
    simp only [sumArea, List.map_nil, List.sum_nil]
    split_ifs
    · rfl
    · rw [List.nil_append]
      exact ih _ (fun q hq => hall q (List.mem_cons_of_mem _ hq))

theorem try_angle_pack_panels_nil (g : AngleGeom) (useSub obsPresent : Bool)
    (obsClearPx spacingPx targetFillFrac : ℚ) (panelDims : ℚ × ℚ)
    (pxPerM roofAreaPx : ℚ) (fillRelativeTo : String) (overshootFrac : ℚ)
    (h1 : ∀ part ∈ (usable_of g useSub obsPresent obsClearPx).parts,
      ¬ availH part ≥ panelDims.1 * pxPerM)
    (h2 : ∀ part ∈ (usable_of g useSub obsPresent obsClearPx).parts,
      ¬ availH part ≥ panelDims.2 * pxPerM) :
    (try_angle_pack g useSub obsPresent obsClearPx spacingPx targetFillFrac
      panelDims pxPerM roofAreaPx fillRelativeTo overshootFrac).1.panels = [] := by
  unfold try_angle_pack
  by_cases her : g.eroded.isEmpty = true
  · rw [if_pos her]
  · rw [if_neg her]
    simp only
    rw [show (if useSub = true then subtractor_model g obsPresent obsClearPx
        else (g.eroded, [])).1 = usable_of g useSub obsPresent obsClearPx by
        unfold usable_of; split_ifs <;> rfl]
    by_cases hus : (usable_of g useSub obsPresent obsClearPx).isEmpty = true
    · rw [if_pos hus]
    · rw [if_neg hus]
      rw [pack_all_parts_rows_zero (panelDims.2 * pxPerM) (panelDims.1 * pxPerM)
        spacingPx _ _ _ h1]
      rw [pack_all_parts_rows_zero (panelDims.1 * pxPerM) (panelDims.2 * pxPerM)
        spacingPx _ _ _ h2]
      simp

theorem specOf_cP : specOf cP = (1139 / 500, 567 / 500, 520) := by rfl

theorem edgeClearEff_cP : edgeClearEff cP * cO.pxPerM = 1 / 2 := by
  show max (1 / 4 : ℚ) (1 / 2) * 1 = 1 / 2
  rw [max_eq_right (by norm_num)]
  ring

theorem angle_run_cO_nil (a : ℚ) : (angle_run cO cP a).1.panels = [] := by
  unfold angle_run
  refine try_angle_pack_panels_nil _ _ _ _ _ _ _ _ _ _ _ ?_ ?_
  · intro part hpart
    rw [show cO.geom a (edgeClearEff cP * cO.pxPerM) =
        rectGeom 10 2 (edgeClearEff cP * cO.pxPerM) from rfl,
      usable_of_rectGeom, edgeClearEff_cP] at hpart
    simp only [rectRegion, List.mem_singleton] at hpart
    subst hpart
    rw [specOf_cP]
    show ¬ availH (rectPoly (1 / 2) (1 / 2) (10 - 1 / 2) (2 - 1 / 2)) ≥ 1139 / 500 * cO.pxPerM
    unfold availH rectPoly
    show ¬ max 0 (2 - 1 / 2 - 1 / 2) ≥ 1139 / 500 * 1
    rw [show max (0 : ℚ) (2 - 1 / 2 - 1 / 2) = 1 by rw [max_eq_right (by norm_num)]; norm_num]
    norm_num
  · intro part hpart
    rw [show cO.geom a (edgeClearEff cP * cO.pxPerM) =
        rectGeom 10 2 (edgeClearEff cP * cO.pxPerM) from rfl,
      usable_of_rectGeom, edgeClearEff_cP] at hpart
    simp only [rectRegion, List.mem_singleton] at hpart
    subst hpart
    rw [specOf_cP]
    show ¬ availH (rectPoly (1 / 2) (1 / 2) (10 - 1 / 2) (2 - 1 / 2)) ≥ 567 / 500 * cO.pxPerM
    unfold availH rectPoly
    show ¬ max 0 (2 - 1 / 2 - 1 / 2) ≥ 567 / 500 * 1
    rw [show max (0 : ℚ) (2 - 1 / 2 - 1 / 2) = 1 by rw [max_eq_right (by norm_num)]; norm_num]
    norm_num

theorem main_best_cO_nil : (main_best cO cP).1.panels = [] := by
  by_contra h
  obtain ⟨a, _, h1, _⟩ := main_best_mem cO cP h
  exact h (by rw [h1, angle_run_cO_nil a])

theorem fallback_run_cO :
    fallback_run cO cP = ⟨[⟨1493 / 1000, 433 / 1000, 3771 / 1000, 1567 / 1000⟩],
      (567 / 500, 1139 / 500), 276 / 25, 645813 / 250000, 414 / 125⟩ := by
  have hneq : ¬ (("usable" : String) = "roof") := by decide
  unfold fallback_run
  rw [specOf_cP]
  norm_num [try_angle_pack, usable_of, fb_clear_px, fb_spacing_px, edgeClearEff, cO, cP,
    rectGeom, rectRegion, rectPoly, margin, pack_all_parts, pack_grid, offsetPlaced,
    gridColsOf, gridRowsOf, baseXOf, baseYOf, availW, availH, packRows, packCols,
    sumArea, Rect.area, max_def, hneq, Int.toNat]

theorem subtractor_model_off (g : AngleGeom) (c : ℚ) :
    subtractor_model g false c = (g.eroded, []) := by
  unfold subtractor_model
  rw [if_pos rfl]

theorem obs_present_cO : obs_present cO cP = false := by
  unfold obs_present
  rw [if_pos (by rfl : cP.obstacle_mode = "off")]

theorem prodSnd_ite {α β : Type} (P : Prop) [Decidable P] (a b : α × β) :
    (if P then a else b).2 = if P then a.2 else b.2 := by
  split_ifs <;> rfl

theorem try_angle_pack_warn_off (g : AngleGeom) (obsClearPx spacingPx targetFillFrac : ℚ)
    (panelDims : ℚ × ℚ) (pxPerM roofAreaPx : ℚ) (fillRelativeTo : String)
    (overshootFrac : ℚ) :
    (try_angle_pack g true false obsClearPx spacingPx targetFillFrac panelDims pxPerM
      roofAreaPx fillRelativeTo overshootFrac).2 = [] := by
  unfold try_angle_pack
  rw [show (if (true : Bool) = true then subtractor_model g false obsClearPx
      else (g.eroded, [])) = (g.eroded, []) by rw [if_pos rfl, subtractor_model_off]]
  simp only [prodSnd_ite, ite_self]

theorem angle_run_cO_warn (a : ℚ) : (angle_run cO cP a).2 = [] := by
  unfold angle_run
  rw [obs_present_cO]
  exact try_angle_pack_warn_off _ _ _ _ _ _ _ _ _

theorem main_warnings_cO : main_warnings cO cP = [] := by
  unfold main_warnings
  simp [angle_run_cO_warn]

theorem layout_out_cO :
    layout_out cO cP = ⟨[⟨1493 / 1000, 433 / 1000, 3771 / 1000, 1567 / 1000⟩], 1,
      (567 / 500, 1139 / 500), 0, 276 / 25, 645813 / 250000, 414 / 125, 13 / 25,
      [fallbackMsg]⟩ := by
  unfold layout_out
  rw [if_pos main_best_cO_nil, fallback_run_cO, specOf_cP, main_warnings_cO]
  norm_num
  rfl

theorem uncapped_fb_pack :
    (pack_grid (rectPoly (2 / 5) (2 / 5) (48 / 5) (8 / 5)) (1139 / 500) (567 / 500)
      (9 / 100) 0
      [(0, 0), ((1139 / 500 + 9 / 100) / 2, 0), (0, (567 / 500 + 9 / 100) / 2),
       ((1139 / 500 + 9 / 100) / 2, (567 / 500 + 9 / 100) / 2)]
      (1139 / 500 * (567 / 500) * (1 / 5))).length = 3 := by
  norm_num [pack_grid, offsetPlaced, gridColsOf, gridRowsOf, baseXOf, baseYOf, availW,
    availH, packRows, packCols, sumArea, Rect.area, rectPoly, margin, max_def, Int.toNat]

/-- Counterexample to the original C1 reading: on the 10 by 2 roof the
main loop places nothing and the accepted result comes from the
fallback, whose boundary clearance is the relaxed
max(0.30, 0.8 times max(edge, min)) = 0.4, not the claimed
max(edge_clearance_m, min_boundary_clearance_m) = 0.5; the accepted
panel starts at ordinate 0.433 and therefore does not lie inside the
roof eroded by the claimed clearance 0.5. -/
theorem C1_counterexample :
    layout_panels cO 120 none none cP = Except.ok (layout_out cO cP) ∧
    fallbackMsg ∈ (layout_out cO cP).warnings ∧
    (layout_out cO cP).panels =
      [⟨1493 / 1000, 433 / 1000, 3771 / 1000, 1567 / 1000⟩] ∧
    edgeClearEff cP * cO.pxPerM = 1 / 2 ∧
    (winning_geom cO cP).eroded = rectRegion (2 / 5) (2 / 5) (48 / 5) (8 / 5) ∧
    ¬ (Rect.mk (1493 / 1000) (433 / 1000) (3771 / 1000) (1567 / 1000)).toSet ⊆
      (rectRegion (1 / 2) (1 / 2) (19 / 2) (3 / 2)).carrier := by
  refine ⟨layout_cO_ok, ?_, ?_, edgeClearEff_cP, ?_, ?_⟩
  · rw [layout_out_cO]
    exact List.mem_singleton.mpr rfl
  · rw [layout_out_cO]
  · have h : fb_clear_px cO cP = 2 / 5 := by
      norm_num [fb_clear_px, edgeClearEff, cP, cO, max_def]
    unfold winning_geom
    rw [if_pos main_best_cO_nil]
    show (rectGeom 10 2 (fb_clear_px cO cP)).eroded = _
    rw [h]
    show rectRegion (2 / 5) (2 / 5) (10 - 2 / 5) (2 - 2 / 5) = _
    norm_num
  · intro h
    have hm : ((1493 : ℚ) / 1000, (433 : ℚ) / 1000) ∈
        (Rect.mk (1493 / 1000) (433 / 1000) (3771 / 1000) (1567 / 1000)).toSet := by
      simp only [Rect.toSet, Set.mem_setOf_eq]
      norm_num
    have hc := h hm
    simp only [rectRegion, Rect.toSet, Set.mem_setOf_eq] at hc
    norm_num at hc

/-- Witness for C1 on the concrete run: the accepted fallback panel is
inside the winning geometry's eroded roof and misses the (empty)
obstacle set in force. -/
theorem C1_witness :
    (Rect.mk (1493 / 1000) (433 / 1000) (3771 / 1000) (1567 / 1000)).toSet ⊆
      (winning_geom cO cP).eroded.carrier ∧
    (Rect.mk (1493 / 1000) (433 / 1000) (3771 / 1000) (1567 / 1000)).toSet ∩
      obs_in_force ∅ (fun _ => ∅) (winning_choice cO cP) = ∅ := by
  have hwg : winning_geom cO cP = rectGeom 10 2 (fb_clear_px cO cP) := by
    unfold winning_geom
    rw [if_pos main_best_cO_nil]
    rfl
  have hsound : GeomSound (winning_geom cO cP) := by
    rw [hwg]; exact rectGeom_sound 10 2 _
  have hinit : (winning_geom cO cP).diffInit.carrier ⊆
      (winning_geom cO cP).eroded.carrier ∧
      (winning_geom cO cP).diffInit.carrier ∩ (∅ : Set (ℚ × ℚ)) = ∅ := by
    rw [hwg]; exact ⟨Set.Subset.refl _, Set.inter_empty _⟩
  have hat : ∀ t : ℚ, ((winning_geom cO cP).diffAt t).carrier ⊆
      (winning_geom cO cP).eroded.carrier ∧
      ((winning_geom cO cP).diffAt t).carrier ∩ (∅ : Set (ℚ × ℚ)) = ∅ := by
    intro t
    rw [hwg]; exact ⟨Set.Subset.refl _, Set.inter_empty _⟩
  have hmem : Rect.mk (1493 / 1000) (433 / 1000) (3771 / 1000) (1567 / 1000) ∈
      (layout_out cO cP).panels := by
    rw [layout_out_cO]
    exact List.mem_singleton.mpr rfl
  exact C1_panels_inside_clearance cO 120 none none cP (layout_out cO cP) ∅ (fun _ => ∅)
    layout_cO_ok hsound hinit hat _ hmem

/-- Counterexample to the original C4 reading: the fallback path does
enforce the target ceiling.  On the 10 by 2 roof the fallback accepts
one panel with placed area within the tolerated band above the target,
while the very same grid with the ceiling disabled (zero target) places
three panels: the two further fitting cells were rejected only by the
target-area ceiling. -/
theorem C4_counterexample :
    layout_panels cO 120 none none cP = Except.ok (layout_out cO cP) ∧
    fallbackMsg ∈ (layout_out cO cP).warnings ∧
    (layout_out cO cP).panels.length = 1 ∧
    (layout_out cO cP).placedPx ≤ (layout_out cO cP).targetPx +
      (specOf cP).1 * cO.pxPerM * ((specOf cP).2.1 * cO.pxPerM) *
        cP.overshoot_tolerance_frac ∧
    (pack_grid (rectPoly (2 / 5) (2 / 5) (48 / 5) (8 / 5)) (1139 / 500) (567 / 500)
      (9 / 100) 0
      [(0, 0), ((1139 / 500 + 9 / 100) / 2, 0), (0, (567 / 500 + 9 / 100) / 2),
       ((1139 / 500 + 9 / 100) / 2, (567 / 500 + 9 / 100) / 2)]
      (1139 / 500 * (567 / 500) * (1 / 5))).length = 3 := by
  refine ⟨layout_cO_ok, ?_, ?_, ?_, uncapped_fb_pack⟩
  · rw [layout_out_cO]
    exact List.mem_singleton.mpr rfl
  · rw [layout_out_cO]
    rfl
  · rw [layout_out_cO, specOf_cP]
    norm_num [cP, cO]

/-- Witness for C4 on the concrete run: the accepted (fallback) result
respects the overshoot ceiling. -/
theorem C4_witness :
    (layout_out cO cP).placedPx ≤ (layout_out cO cP).targetPx +
      (specOf cP).1 * cO.pxPerM * ((specOf cP).2.1 * cO.pxPerM) *
        cP.overshoot_tolerance_frac := by
  have hpos : GeomPos (winning_geom cO cP) := by
    have hwg : winning_geom cO cP = rectGeom 10 2 (fb_clear_px cO cP) := by
      unfold winning_geom
      rw [if_pos main_best_cO_nil]
      rfl
    rw [hwg]; exact rectGeom_pos 10 2 _
  exact C4_overshoot_ceiling cO 120 none none cP (layout_out cO cP) layout_cO_ok
    (by norm_num [cP]) (by norm_num [cO]) hpos

/-- Witness for C2 on the concrete run: the accepted panels are
pairwise non-overlapping. -/
theorem C2_witness :
    (layout_out cO cP).panels.Pairwise (fun a b => interArea a b = 0) := by
  have hOK : GeomPacksOK (winning_geom cO cP) := by
    have hwg : winning_geom cO cP = rectGeom 10 2 (fb_clear_px cO cP) := by
      unfold winning_geom
      rw [if_pos main_best_cO_nil]
      rfl
    rw [hwg]; exact rectGeom_packsOK 10 2 _
  exact C2_pairwise_disjoint cO 120 none none cP (layout_out cO cP) layout_cO_ok
    (by norm_num [cO]) (by norm_num [cP]) hOK
